import Mathlib

/-!
Verification of the xmva template pipeline.

This file gives a shallow embedding of the core of the `xmva` generator
(`src/sigil.rs`, `src/compiler.rs` / `src/_compiler.rs`, `src/preprocessor.rs`,
`src/config.rs`) and proves or refutes the behavioural claims made by the
specification about it.

Strings are modelled as `List Char` (Rust code iterates `s.chars()`); machine
integers (`usize`) as `Nat` with the 64-bit bound made explicit where the Rust
code can reject an input by overflow.
-/

set_option maxHeartbeats 1000000

/-- Strings as lists of characters, matching the Rust char-by-char iteration. -/
abbrev Str := List Char

deriving instance DecidableEq for Except

namespace Xmva

/-! ## Sigil classifiers (src/sigil.rs)

Each classifier maps a character to its symbolic role; characters not in the
table classify as `Non`. The tables are the `strum` `ch` properties of
`PreprocessorSigil` and `CompilerSigil`. -/

/-- Roles of the reference-level grammar (`PreprocessorSigil`). -/
inductive PreprocessorSigil
  | Non (c : Char)
  | TokenStart
  | TokenEmbed
  | KeyRefOpen
  | KeyRefClose
deriving DecidableEq, Repr

/-- Character classification for the reference-level grammar:
TokenStart=`@`, Embed=`\`, KeyRefOpen=`{`, KeyRefClose=`}`. -/
def PreprocessorSigil.fromChar (c : Char) : PreprocessorSigil :=
  if c = '@' then .TokenStart
  else if c = '\\' then .TokenEmbed
  else if c = '{' then .KeyRefOpen
  else if c = '}' then .KeyRefClose
  else .Non c

/-- Roles of the template-level grammar (`CompilerSigil`). -/
inductive CompilerSigil
  | Non (c : Char)
  | TokenStart
  | TokenEmbed
  | PositionDot
  | NamedArgumentRefOpen
  | NamedArgumentRefClose
  | UnamedArgumentRefOpen
  | UnamedArgumentRefClose
  | SkipLastOpen
  | SkipLastClose
deriving DecidableEq, Repr

/-- Character classification for the template-level grammar:
TokenStart=`$`, Embed=`\`, PositionDot=`.`, NamedOpen=`{`, NamedClose=`}`,
IndexedOpen=`(`, IndexedClose=`)`, SkipLastOpen=`[`, SkipLastClose=`]`. -/
def CompilerSigil.fromChar (c : Char) : CompilerSigil :=
  if c = '$' then .TokenStart
  else if c = '\\' then .TokenEmbed
  else if c = '.' then .PositionDot
  else if c = '{' then .NamedArgumentRefOpen
  else if c = '}' then .NamedArgumentRefClose
  else if c = '(' then .UnamedArgumentRefOpen
  else if c = ')' then .UnamedArgumentRefClose
  else if c = '[' then .SkipLastOpen
  else if c = ']' then .SkipLastClose
  else .Non c

/-! ## Template lexer (CompilerToken::tokenize, src/compiler.rs 64-331) -/

/-- Error kinds of the compiler stage (`compiler::ErrorKind`).
`PanicUnreachable` is not a Rust error variant: it models the `unreachable!()`
panics of the Rust code as an explicit outcome, so that the embedding stays a
total function. -/
inductive CErr
  | DuplicateArgument
  | IllegalSymbol
  | EmptyReference
  | InvalidReference
  | InvalidToken
  | PoisonedLock
  | NotPreprocessed
  | NonExistantArgument
  | PanicUnreachable
deriving DecidableEq, Repr

/-- Template tokens (`CompilerToken`). -/
inductive CompilerToken
  | Raw (s : Str)
  | NamedArgumentRef (s : Str)
  | UnamedArgumentRef (n : Nat)
  | Position
  | SkipLast (s : Str)
deriving DecidableEq, Repr

/-- Tokenizer states (`CompilerTokenizerState`). -/
inductive CState
  | Copying (buf : Str)
  | CopyingNamedArgumentRef (buf : Str)
  | CopyingUnamedArgumentRef (buf : Str)
  | CopyingSkipLast (buf : Str)
  | CopyingSkipLastEmbed (buf : Str)
  | SigilFound
  | EmbedFound (buf : Str)
deriving DecidableEq, Repr

/-- Rust `str::parse::<usize>`: an optional leading `+`, then one or more
ASCII digits, value below `2^64` (64-bit `usize`); anything else fails. -/
def parseUsize (s : Str) : Option Nat :=
  let digits : Str := match s with
    | '+' :: rest => rest
    | _ => s
  if digits = [] then none
  else if digits.all (fun c => c.isDigit) then
    let v := digits.foldl (fun a c => a * 10 + (c.toNat - 48)) 0
    if v < 2 ^ 64 then some v else none
  else none

/-- One character step of `CompilerToken::tokenize`: from a state and the next
character, either an error or the (zero or one) emitted tokens and next state. -/
def cstep (st : CState) (ch : Char) : Except CErr (List CompilerToken × CState) :=
  match st with
  | .Copying buf =>
    match CompilerSigil.fromChar ch with
    | .TokenStart => .ok ((if buf = [] then [] else [.Raw buf]), .SigilFound)
    | .TokenEmbed => .ok ([], .EmbedFound buf)
    | _ => .ok ([], .Copying (buf ++ [ch]))
  | .EmbedFound buf =>
    match CompilerSigil.fromChar ch with
    | .TokenStart => .ok ([], .Copying (buf ++ [ch]))
    | .TokenEmbed => .ok ([], .Copying (buf ++ [ch]))
    | _ => .error .IllegalSymbol
  | .SigilFound =>
    match CompilerSigil.fromChar ch with
    | .TokenStart => .error .IllegalSymbol
    | .PositionDot => .ok ([.Position], .Copying [])
    | .NamedArgumentRefOpen => .ok ([], .CopyingNamedArgumentRef [])
    | .UnamedArgumentRefOpen => .ok ([], .CopyingUnamedArgumentRef [])
    | .SkipLastOpen => .ok ([], .CopyingSkipLast [])
    | _ => .error .IllegalSymbol
  | .CopyingNamedArgumentRef buf =>
    match CompilerSigil.fromChar ch with
    | .NamedArgumentRefClose =>
      if buf = [] then .error .EmptyReference
      else .ok ([.NamedArgumentRef buf], .Copying [])
    | .PositionDot => .ok ([], .CopyingNamedArgumentRef (buf ++ [ch]))
    | .Non _ => .ok ([], .CopyingNamedArgumentRef (buf ++ [ch]))
    | _ => .error .IllegalSymbol
  | .CopyingUnamedArgumentRef buf =>
    match CompilerSigil.fromChar ch with
    | .UnamedArgumentRefClose =>
      if buf = [] then .error .EmptyReference
      else
        match parseUsize buf with
        | none => .error .InvalidReference
        | some v => .ok ([.UnamedArgumentRef v], .Copying [])
    | .PositionDot => .ok ([], .CopyingUnamedArgumentRef (buf ++ [ch]))
    | .Non _ => .ok ([], .CopyingUnamedArgumentRef (buf ++ [ch]))
    | _ => .error .IllegalSymbol
  | .CopyingSkipLast buf =>
    match CompilerSigil.fromChar ch with
    | .SkipLastClose =>
      if buf = [] then .error .EmptyReference
      else .ok ([.SkipLast buf], .Copying [])
    | .TokenEmbed => .ok ([], .CopyingSkipLastEmbed buf)
    | _ => .ok ([], .CopyingSkipLast (buf ++ [ch]))
  | .CopyingSkipLastEmbed buf =>
    match CompilerSigil.fromChar ch with
    | .SkipLastClose => .ok ([], .CopyingSkipLast (buf ++ [ch]))
    | .TokenEmbed => .ok ([], .CopyingSkipLast (buf ++ [ch]))
    | _ => .error .IllegalSymbol

/-- End-of-input handling of `CompilerToken::tokenize` (the match on the final
state). -/
def cfinal (st : CState) : Except CErr (List CompilerToken) :=
  match st with
  | .Copying buf => .ok (if buf = [] then [] else [.Raw buf])
  | .EmbedFound _ => .error .IllegalSymbol
  | .SigilFound => .error .InvalidToken
  | .CopyingNamedArgumentRef _ => .error .InvalidToken
  | .CopyingUnamedArgumentRef _ => .error .InvalidToken
  | .CopyingSkipLastEmbed _ => .error .InvalidToken
  | .CopyingSkipLast _ => .error .InvalidToken

/-- The tokenizer loop from a given state over the remaining input. -/
def tokenizeGo (st : CState) : Str → Except CErr (List CompilerToken)
  | [] => cfinal st
  | c :: cs =>
    match cstep st c with
    | .error e => .error e
    | .ok (em, st') =>
      match tokenizeGo st' cs with
      | .error e => .error e
      | .ok rest => .ok (em ++ rest)

/-- `CompilerToken::tokenize`: run the state machine from `Copying("")`. -/
def tokenize (s : Str) : Except CErr (List CompilerToken) :=
  tokenizeGo (.Copying []) s

/-- Rust `str::replace` for a single-character pattern: every occurrence of
`c` is replaced by `repl`. -/
def replChar (c : Char) (repl : Str) (s : Str) : Str :=
  s.flatMap (fun x => if x = c then repl else [x])

/-- `CompilerToken::untokenize` (src/compiler.rs 359-421): re-escape embed and
token-start characters in `Raw`, embed and close characters in `SkipLast`,
print the stored index in decimal for `UnamedArgumentRef`. -/
def untokenize : CompilerToken → Str
  | .Raw v => replChar '$' ['\\', '$'] (replChar '\\' ['\\', '\\'] v)
  | .Position => ['$', '.']
  | .NamedArgumentRef v => ['$', '{'] ++ v ++ ['}']
  | .UnamedArgumentRef n => ['$', '('] ++ (Nat.repr n).data ++ [')']
  | .SkipLast v => ['$', '['] ++ replChar ']' ['\\', ']'] (replChar '\\' ['\\', '\\'] v) ++ [']']

/-- The `strum` property `surface` of `CompilerToken` in src/compiler.rs and
src/_compiler.rs: set to `true` on `Raw` and `NamedArgumentRef` only. -/
def surfaceProp : CompilerToken → Option Bool
  | .Raw _ => some true
  | .NamedArgumentRef _ => some true
  | _ => none

/-- `CompilerToken::tokenize_surface`: tokenize, then replace every token whose
`surface` property is not `Some(true)` by a `Raw` holding its untokenization. -/
def tokenizeSurface (s : Str) : Except CErr (List CompilerToken) :=
  match tokenize s with
  | .error e => .error e
  | .ok ts =>
    .ok (ts.map (fun t =>
      match surfaceProp t with
      | some true => t
      | _ => .Raw (untokenize t)))

/-! ## Instrumented template lexer

`CompilerTokenB` is a proof-side instrumentation of `CompilerToken`: it is the
same machine, but an indexed-argument token additionally records the raw body
text it was parsed from. Erasing the recorded body recovers the source
tokenizer exactly; the instrumented machine is what makes the round-trip
statement precise (the body text is the only information `tokenize` drops). -/

/-- Template tokens with the raw body of an indexed reference recorded. -/
inductive CompilerTokenB
  | Raw (s : Str)
  | NamedArgumentRef (s : Str)
  | UnamedArgumentRef (body : Str) (n : Nat)
  | Position
  | SkipLast (s : Str)
deriving DecidableEq, Repr

/-- Forget the recorded body, recovering a `CompilerToken`. -/
def eraseB : CompilerTokenB → CompilerToken
  | .Raw s => .Raw s
  | .NamedArgumentRef s => .NamedArgumentRef s
  | .UnamedArgumentRef _ n => .UnamedArgumentRef n
  | .Position => .Position
  | .SkipLast s => .SkipLast s

/-- One character step of the instrumented tokenizer; identical to `cstep`
except that the emitted indexed-argument token keeps its body text. -/
def cstepB (st : CState) (ch : Char) : Except CErr (List CompilerTokenB × CState) :=
  match st with
  | .Copying buf =>
    match CompilerSigil.fromChar ch with
    | .TokenStart => .ok ((if buf = [] then [] else [.Raw buf]), .SigilFound)
    | .TokenEmbed => .ok ([], .EmbedFound buf)
    | _ => .ok ([], .Copying (buf ++ [ch]))
  | .EmbedFound buf =>
    match CompilerSigil.fromChar ch with
    | .TokenStart => .ok ([], .Copying (buf ++ [ch]))
    | .TokenEmbed => .ok ([], .Copying (buf ++ [ch]))
    | _ => .error .IllegalSymbol
  | .SigilFound =>
    match CompilerSigil.fromChar ch with
    | .TokenStart => .error .IllegalSymbol
    | .PositionDot => .ok ([.Position], .Copying [])
    | .NamedArgumentRefOpen => .ok ([], .CopyingNamedArgumentRef [])
    | .UnamedArgumentRefOpen => .ok ([], .CopyingUnamedArgumentRef [])
    | .SkipLastOpen => .ok ([], .CopyingSkipLast [])
    | _ => .error .IllegalSymbol
  | .CopyingNamedArgumentRef buf =>
    match CompilerSigil.fromChar ch with
    | .NamedArgumentRefClose =>
      if buf = [] then .error .EmptyReference
      else .ok ([.NamedArgumentRef buf], .Copying [])
    | .PositionDot => .ok ([], .CopyingNamedArgumentRef (buf ++ [ch]))
    | .Non _ => .ok ([], .CopyingNamedArgumentRef (buf ++ [ch]))
    | _ => .error .IllegalSymbol
  | .CopyingUnamedArgumentRef buf =>
    match CompilerSigil.fromChar ch with
    | .UnamedArgumentRefClose =>
      if buf = [] then .error .EmptyReference
      else
        match parseUsize buf with
        | none => .error .InvalidReference
        | some v => .ok ([.UnamedArgumentRef buf v], .Copying [])
    | .PositionDot => .ok ([], .CopyingUnamedArgumentRef (buf ++ [ch]))
    | .Non _ => .ok ([], .CopyingUnamedArgumentRef (buf ++ [ch]))
    | _ => .error .IllegalSymbol
  | .CopyingSkipLast buf =>
    match CompilerSigil.fromChar ch with
    | .SkipLastClose =>
      if buf = [] then .error .EmptyReference
      else .ok ([.SkipLast buf], .Copying [])
    | .TokenEmbed => .ok ([], .CopyingSkipLastEmbed buf)
    | _ => .ok ([], .CopyingSkipLast (buf ++ [ch]))
  | .CopyingSkipLastEmbed buf =>
    match CompilerSigil.fromChar ch with
    | .SkipLastClose => .ok ([], .CopyingSkipLast (buf ++ [ch]))
    | .TokenEmbed => .ok ([], .CopyingSkipLast (buf ++ [ch]))
    | _ => .error .IllegalSymbol

/-- End-of-input handling of the instrumented tokenizer. -/
def cfinalB (st : CState) : Except CErr (List CompilerTokenB) :=
  match st with
  | .Copying buf => .ok (if buf = [] then [] else [.Raw buf])
  | .EmbedFound _ => .error .IllegalSymbol
  | .SigilFound => .error .InvalidToken
  | .CopyingNamedArgumentRef _ => .error .InvalidToken
  | .CopyingUnamedArgumentRef _ => .error .InvalidToken
  | .CopyingSkipLastEmbed _ => .error .InvalidToken
  | .CopyingSkipLast _ => .error .InvalidToken

/-- The instrumented tokenizer loop. -/
def tokenizeGoB (st : CState) : Str → Except CErr (List CompilerTokenB)
  | [] => cfinalB st
  | c :: cs =>
    match cstepB st c with
    | .error e => .error e
    | .ok (em, st') =>
      match tokenizeGoB st' cs with
      | .error e => .error e
      | .ok rest => .ok (em ++ rest)

/-- The instrumented tokenizer. -/
def tokenizeB (s : Str) : Except CErr (List CompilerTokenB) :=
  tokenizeGoB (.Copying []) s

/-- Escaping applied by `untokenize` to a `Raw` body, fused into one pass. -/
def escRaw (s : Str) : Str :=
  s.flatMap (fun c => if c = '\\' then ['\\', '\\'] else if c = '$' then ['\\', '$'] else [c])

/-- Escaping applied by `untokenize` to a `SkipLast` body, fused into one pass. -/
def escSkip (s : Str) : Str :=
  s.flatMap (fun c => if c = '\\' then ['\\', '\\'] else if c = ']' then ['\\', ']'] else [c])

/-- Inverse printing of an instrumented token; an indexed reference prints its
recorded body rather than the canonical decimal of its value. -/
def untokenizeB : CompilerTokenB → Str
  | .Raw v => escRaw v
  | .Position => ['$', '.']
  | .NamedArgumentRef v => ['$', '{'] ++ v ++ ['}']
  | .UnamedArgumentRef body _ => ['$', '('] ++ body ++ [')']
  | .SkipLast v => ['$', '['] ++ escSkip v ++ [']']

/-- The exact source text still pending inside a tokenizer state. -/
def stateSrc : CState → Str
  | .Copying buf => escRaw buf
  | .SigilFound => ['$']
  | .EmbedFound buf => escRaw buf ++ ['\\']
  | .CopyingNamedArgumentRef buf => ['$', '{'] ++ buf
  | .CopyingUnamedArgumentRef buf => ['$', '('] ++ buf
  | .CopyingSkipLast buf => ['$', '['] ++ escSkip buf
  | .CopyingSkipLastEmbed buf => ['$', '['] ++ escSkip buf ++ ['\\']

/-- An instrumented token whose recorded index body is written canonically
(no leading zeros, no sign); always true for the other token kinds. -/
def canonicalBody : CompilerTokenB → Bool
  | .UnamedArgumentRef body n => body = (Nat.repr n).data
  | _ => true

/-- The per-token replacement claimed for surface tokenization, written from
the specification: `Raw` and `NamedArgumentRef` are preserved unchanged, every
other token is replaced by a `Raw` holding its untokenized literal text. -/
def surfaceSpecMap : CompilerToken → CompilerToken
  | .Raw v => .Raw v
  | .NamedArgumentRef v => .NamedArgumentRef v
  | t => .Raw (untokenize t)

/-! ## Names and tags (src/config.rs) -/

/-- User tags attached to a name (`config::Tag`). -/
inductive Tag
  | NoPrefix
deriving DecidableEq, Repr

/-- A name together with its tags (`config::StringWithTags`). -/
structure StringWithTags where
  tags : List Tag
  string : Str
deriving DecidableEq, Repr

/-- A definition or key name (`config::Name`): raw or tagged. -/
inductive Name
  | Raw (s : Str)
  | Tagged (swt : StringWithTags)
deriving DecidableEq, Repr

/-- Actions applied to a name (`config::Todo`). -/
inductive Todo
  | ApplyPrefix
deriving DecidableEq, Repr

/-- The preset todos (`PRESET_TODO`): every `Todo` whose strum `preset`
property is true, i.e. exactly `ApplyPrefix`. -/
def presetTodo : List Todo := [.ApplyPrefix]

/-- `Todo::from_tags_with_presets`: start from the presets, then let each tag
remove (or add) todos; `NoPrefix` removes `ApplyPrefix` when present. -/
def Todo.fromTagsWithPresets (tags : List Tag) : List Todo :=
  tags.foldl
    (fun todoVec tag =>
      match tag with
      | Tag.NoPrefix =>
        if todoVec.contains Todo.ApplyPrefix then
          todoVec.filter (fun todo => todo ≠ Todo.ApplyPrefix)
        else todoVec)
    presetTodo

/-- Keyable common values (`config::CommonKeyable`); the field is called
`prefix` in the Rust source, renamed here because `prefix` is reserved in
Lean. -/
structure CommonKeyable where
  pfx : Str
deriving DecidableEq, Repr

/-- `StringWithTags::apply_tags`: translate tags to todos and apply each todo
to the string; `ApplyPrefix` prepends the common prefix. -/
def StringWithTags.applyTags (swt : StringWithTags) (commonKeys : CommonKeyable) : Str :=
  (Todo.fromTagsWithPresets swt.tags).foldl
    (fun taggedString todo =>
      match todo with
      | Todo.ApplyPrefix => commonKeys.pfx ++ taggedString)
    swt.string

/-! ## Reference lexer (preprocessor_string_tokenizer, src/preprocessor.rs
152-314) -/

/-- Error kinds of the preprocessor stage (`preprocessor::ErrorKind`).
`MutualReferences` carries the key/name list that the Rust error message is
rendered from. -/
inductive PErr
  | InvalidToken
  | IllegalSymbol
  | Serialization
  | PoisonedLock
  | NonExistantReference
  | MutualReferences (keyNames : List (Str × Name))
  | EmptyReference
  | DuplicateKey
deriving DecidableEq, Repr

/-- Reference tokens (`PreprocessorToken`). -/
inductive PreprocessorToken
  | Raw (s : Str)
  | Key (s : Str)
deriving DecidableEq, Repr

/-- Reference tokenizer states (`PreprocessorTokenizerState`). -/
inductive PState
  | Copying (buf : Str)
  | CopyingKey (buf : Str)
  | SigilFound
  | EmbedFound (buf : Str)
deriving DecidableEq, Repr

/-- One character step of `preprocessor_string_tokenizer`. -/
def pstep (st : PState) (ch : Char) : Except PErr (List PreprocessorToken × PState) :=
  match st with
  | .Copying buf =>
    match PreprocessorSigil.fromChar ch with
    | .TokenStart => .ok ((if buf = [] then [] else [.Raw buf]), .SigilFound)
    | .TokenEmbed => .ok ([], .EmbedFound buf)
    | _ => .ok ([], .Copying (buf ++ [ch]))
  | .EmbedFound buf =>
    match PreprocessorSigil.fromChar ch with
    | .TokenStart => .ok ([], .Copying (buf ++ [ch]))
    | .TokenEmbed => .ok ([], .Copying (buf ++ [ch]))
    | _ => .error .IllegalSymbol
  | .SigilFound =>
    match PreprocessorSigil.fromChar ch with
    | .TokenStart => .error .IllegalSymbol
    | .KeyRefOpen => .ok ([], .CopyingKey [])
    | _ => .error .IllegalSymbol
  | .CopyingKey buf =>
    match PreprocessorSigil.fromChar ch with
    | .KeyRefClose =>
      if buf = [] then .error .EmptyReference
      else .ok ([.Key buf], .Copying [])
    | .Non _ => .ok ([], .CopyingKey (buf ++ [ch]))
    | _ => .error .IllegalSymbol

/-- End-of-input handling of `preprocessor_string_tokenizer`. -/
def pfinal (st : PState) : Except PErr (List PreprocessorToken) :=
  match st with
  | .Copying buf => .ok (if buf = [] then [] else [.Raw buf])
  | .EmbedFound _ => .error .IllegalSymbol
  | .SigilFound => .error .InvalidToken
  | .CopyingKey _ => .error .InvalidToken

/-- The reference tokenizer loop. -/
def ptokenizeGo (st : PState) : Str → Except PErr (List PreprocessorToken)
  | [] => pfinal st
  | c :: cs =>
    match pstep st c with
    | .error e => .error e
    | .ok (em, st') =>
      match ptokenizeGo st' cs with
      | .error e => .error e
      | .ok rest => .ok (em ++ rest)

/-- `preprocessor_string_tokenizer`. -/
def preprocessorStringTokenizer (s : Str) : Except PErr (List PreprocessorToken) :=
  ptokenizeGo (.Copying []) s

/-- `Preprocess::into_preprocessor_tokens` for `String`: the common keys are
ignored. -/
def strIntoPreprocessorTokens (s : Str) (_ : CommonKeyable) :
    Except PErr (List PreprocessorToken) :=
  preprocessorStringTokenizer s

/-- `Preprocess::into_preprocessor_tokens` for `Name`: initialize the tagged
string (a raw name gets no tags) and tokenize the tag-applied text. -/
def nameIntoPreprocessorTokens (n : Name) (keys : CommonKeyable) :
    Except PErr (List PreprocessorToken) :=
  let swt := match n with
    | .Raw s => StringWithTags.mk [] s
    | .Tagged swt => swt
  preprocessorStringTokenizer (swt.applyTags keys)

/-! ## Key table and resolver (src/preprocessor.rs 316-552) -/

/-- A resolvable value (`Preprocessable<T>`). -/
inductive Preprocessable (α : Type)
  | NotPreprocessed (v : α)
  | Preprocessed (s : Str)
deriving DecidableEq, Repr

/-- A table cell (`AnyPreprocessable`): either a `Name`-typed or a
`String`-typed resolvable. -/
inductive AnyPreprocessable
  | name (v : Preprocessable Name)
  | string (v : Preprocessable Str)
deriving DecidableEq, Repr

instance : Inhabited AnyPreprocessable := ⟨.string (.Preprocessed [])⟩

/-- The key table: Rust `HashMap<String, AnyPreprocessable>`, modelled as an
association list whose order is the (arbitrary but fixed) map iteration
order. Writes through the shared `Arc<RwLock>` cells are modelled by updating
the entry in place. -/
abbrev KeyTable := List (Str × AnyPreprocessable)

/-- Map lookup. -/
def tblLookup : KeyTable → Str → Option AnyPreprocessable
  | [], _ => none
  | (k, v) :: rest, key => if k = key then some v else tblLookup rest key

/-- Cell write: replace the value stored under `key`. -/
def tblUpdate : KeyTable → Str → AnyPreprocessable → KeyTable
  | [], _, _ => []
  | (k, v) :: rest, key, nv =>
    if k = key then (k, nv) :: tblUpdate rest key nv
    else (k, v) :: tblUpdate rest key nv

/-- The token walk of `preprocessor_token_assembly_attempt`, with the
accumulated output string made explicit. A `Key` token whose target is absent
is a fatal `NonExistantReference`; a target still unresolved abandons the
attempt (`Ok(None)`); otherwise the resolved text is spliced in. -/
def assemblyGo (keys : KeyTable) : List PreprocessorToken → Str → Except PErr (Option Str)
  | [], acc => .ok (some acc)
  | .Raw s :: rest, acc => assemblyGo keys rest (acc ++ s)
  | .Key key :: rest, acc =>
    match tblLookup keys key with
    | none => .error .NonExistantReference
    | some (.name (.NotPreprocessed _)) => .ok none
    | some (.name (.Preprocessed nm)) => assemblyGo keys rest (acc ++ nm)
    | some (.string (.NotPreprocessed _)) => .ok none
    | some (.string (.Preprocessed s)) => assemblyGo keys rest (acc ++ s)

/-- `preprocessor_token_assembly_attempt`. -/
def preprocessorTokenAssemblyAttempt (tokens : List PreprocessorToken) (keys : KeyTable) :
    Except PErr (Option Str) :=
  assemblyGo keys tokens []

/-- One sweep of `preprocess_key_name_pairs` over the iteration order `order`:
already-resolved entries are skipped, unresolved entries are tokenized and an
assembly is attempted; deferred attempts increment the counter (`now_left`),
successful attempts write the resolved string back through the shared cell. -/
def sweepGo (ck : CommonKeyable) (tbl : KeyTable) (order : List Str) (deferred : Nat) :
    KeyTable × Except PErr Nat :=
  match order with
  | [] => (tbl, .ok deferred)
  | key :: rest =>
    match tblLookup tbl key with
    | none => sweepGo ck tbl rest deferred
    | some (.name (.Preprocessed _)) => sweepGo ck tbl rest deferred
    | some (.string (.Preprocessed _)) => sweepGo ck tbl rest deferred
    | some (.name (.NotPreprocessed n)) =>
      match nameIntoPreprocessorTokens n ck with
      | .error err => (tbl, .error err)
      | .ok tokens =>
        match preprocessorTokenAssemblyAttempt tokens tbl with
        | .error err => (tbl, .error err)
        | .ok none => sweepGo ck tbl rest (deferred + 1)
        | .ok (some s) =>
          sweepGo ck (tblUpdate tbl key (.name (.Preprocessed s))) rest deferred
    | some (.string (.NotPreprocessed src)) =>
      match strIntoPreprocessorTokens src ck with
      | .error err => (tbl, .error err)
      | .ok tokens =>
        match preprocessorTokenAssemblyAttempt tokens tbl with
        | .error err => (tbl, .error err)
        | .ok none => sweepGo ck tbl rest (deferred + 1)
        | .ok (some s) =>
          sweepGo ck (tblUpdate tbl key (.string (.Preprocessed s))) rest deferred

/-- The key/name list placed in the `MutualReferences` error (the
`filter_map` at src/preprocessor.rs 516-536): only `Name`-typed entries still
unresolved are collected; `String`-typed entries are dropped. -/
def unresolvedKeyNames (tbl : KeyTable) : List (Str × Name) :=
  tbl.filterMap (fun p =>
    match p.2 with
    | .name (.NotPreprocessed n) => some (p.1, n)
    | _ => none)

/-- The sweep loop of `preprocess_key_name_pairs`: while `left` is nonzero,
run a sweep; if it deferred at least `left` entries, fail with
`MutualReferences` over the unresolved name entries; otherwise continue with
the deferred count. The table is returned alongside the result because the
Rust function mutates it in place. -/
def preprocessLoop (ck : CommonKeyable) (tbl : KeyTable) (left : Nat) :
    KeyTable × Except PErr Unit :=
  if left = 0 then (tbl, .ok ())
  else
    match sweepGo ck tbl (tbl.map Prod.fst) 0 with
    | (tbl', .error e) => (tbl', .error e)
    | (tbl', .ok nowLeft) =>
      if h : left ≤ nowLeft then
        (tbl', .error (.MutualReferences (unresolvedKeyNames tbl')))
      else preprocessLoop ck tbl' nowLeft
termination_by left
decreasing_by omega

/-- `preprocess_key_name_pairs`: the sweep loop started with `left` equal to
the table size. -/
def preprocessKeyNamePairs (ck : CommonKeyable) (tbl : KeyTable) :
    KeyTable × Except PErr Unit :=
  preprocessLoop ck tbl tbl.length

/-- Fuel-indexed version of the sweep loop, modelling the unbounded Rust
`while` loop: `none` means the fuel ran out before the loop returned. -/
def preprocessLoopFuel (ck : CommonKeyable) :
    Nat → KeyTable → Nat → Option (KeyTable × Except PErr Unit)
  | 0, _, _ => none
  | fuel + 1, tbl, left =>
    if left = 0 then some (tbl, .ok ())
    else
      match sweepGo ck tbl (tbl.map Prod.fst) 0 with
      | (tbl', .error e) => some (tbl', .error e)
      | (tbl', .ok nowLeft) =>
        if left ≤ nowLeft then
          some (tbl', .error (.MutualReferences (unresolvedKeyNames tbl')))
        else preprocessLoopFuel ck fuel tbl' nowLeft

/-- The tokenization of a table cell as attempted by the sweep: the
`into_preprocessor_tokens` of its unresolved content, or no tokens for a
resolved cell. -/
def entryTokens (ck : CommonKeyable) : AnyPreprocessable → Except PErr (List PreprocessorToken)
  | .name (.NotPreprocessed n) => nameIntoPreprocessorTokens n ck
  | .string (.NotPreprocessed src) => strIntoPreprocessorTokens src ck
  | .name (.Preprocessed _) => .ok []
  | .string (.Preprocessed _) => .ok []

/-- The key names referenced by a token list. -/
def tokenKeys (tokens : List PreprocessorToken) : List Str :=
  tokens.filterMap (fun t =>
    match t with
    | .Key d => some d
    | _ => none)

/-- The dependencies of a table cell: the key names of its tokenization
(empty for resolved cells or failing tokenizations). -/
def entryDeps (ck : CommonKeyable) (e : AnyPreprocessable) : List Str :=
  match entryTokens ck e with
  | .error _ => []
  | .ok tokens => tokenKeys tokens

/-- A cell that is still unresolved. -/
def isUnresolved : AnyPreprocessable → Bool
  | .name (.NotPreprocessed _) => true
  | .string (.NotPreprocessed _) => true
  | _ => false

/-- The resolved text stored in a cell, if any. -/
def cellVal : AnyPreprocessable → Option Str
  | .name (.Preprocessed s) => some s
  | .string (.Preprocessed s) => some s
  | _ => none

/-- The resolved text stored under a key, if any. -/
def lookupVal (tbl : KeyTable) (k : Str) : Option Str :=
  match tblLookup tbl k with
  | some c => cellVal c
  | none => none

/-- Whether the entry under `k` is present and still unresolved. -/
def unresAt (tbl : KeyTable) (k : Str) : Bool :=
  match tblLookup tbl k with
  | some e => isUnresolved e
  | none => false

/-- The cell written back when an attempt for an entry succeeds: the kind of
the cell is kept, the content becomes the resolved string. -/
def resolveCell : AnyPreprocessable → Str → AnyPreprocessable
  | .name _, s => .name (.Preprocessed s)
  | .string _, s => .string (.Preprocessed s)

/-- The denotational value of a key in a table: a resolved entry contributes
its string; an unresolved entry substitutes its dependencies recursively,
with `fuel` bounding the recursion depth. This is the canonical resolution an
acyclic table converges to, independent of sweep order. -/
def denoteFuel (ck : CommonKeyable) : Nat → KeyTable → Str → Option Str
  | 0, _, _ => none
  | fuel + 1, tbl, key =>
    match tblLookup tbl key with
    | none => none
    | some (.name (.Preprocessed s)) => some s
    | some (.string (.Preprocessed s)) => some s
    | some e =>
      match entryTokens ck e with
      | .error _ => none
      | .ok tokens =>
        tokens.foldr
          (fun t acc =>
            match acc with
            | none => none
            | some r =>
              match t with
              | .Raw s => some (s ++ r)
              | .Key d =>
                match denoteFuel ck fuel tbl d with
                | none => none
                | some v => some (v ++ r))
          (some [])

/-- The token-level substitution used by `denoteFuel`, as a standalone
function. -/
def substDen (ck : CommonKeyable) (fuel : Nat) (tbl : KeyTable)
    (tokens : List PreprocessorToken) : Option Str :=
  tokens.foldr
    (fun t acc =>
      match acc with
      | none => none
      | some r =>
        match t with
        | .Raw s => some (s ++ r)
        | .Key d =>
          match denoteFuel ck fuel tbl d with
          | none => none
          | some v => some (v ++ r))
    (some [])

/-- The number of unresolved entries of a table. -/
def countUnresolved (tbl : KeyTable) : Nat :=
  (tbl.filter (fun p => isUnresolved p.2)).length

/-- Invariant of a resolver run over an acyclic table `tbl0` with ranking
`rank`: the key set is preserved and every entry is either still its original
cell or has been resolved to the denotational value of its key. -/
def c4Inv (ck : CommonKeyable) (rank : Str → Nat) (tbl0 cur : KeyTable) : Prop :=
  cur.map Prod.fst = tbl0.map Prod.fst ∧
  ∀ k, tblLookup cur k = tblLookup tbl0 k ∨
    ∃ e0 v, tblLookup tbl0 k = some e0 ∧
      denoteFuel ck (rank k + 1) tbl0 k = some v ∧
      tblLookup cur k = some (resolveCell e0 v)

/-- Whether an error is the `MutualReferences` kind. -/
def PErr.isMutual : PErr → Bool
  | .MutualReferences _ => true
  | _ => false

/-- Common-keys environment for the concrete resolver runs below: an empty
prefix. -/
def c4ck : CommonKeyable := ⟨[]⟩

/-- A concrete acyclic two-entry table: key `A` holds plain text and key `B`
references `A`. -/
def c4tbl : KeyTable :=
  [(['A'], .string (.NotPreprocessed ['x'])),
   (['B'], .string (.NotPreprocessed ['@', '{', 'A', '}', 'y']))]

/-- A rank function witnessing the acyclicity of `c4tbl`. -/
def c4rank : Str → Nat := fun k => if k = ['B'] then 1 else 0

/-! ## The compile stage (src/_compiler.rs 427-1220)

`_config.rs` is declared in src/main.rs but absent from the tree; its
structures are taken from the field-identical config.rs versions
(src/config.rs 65-455), restricted to the fields the compile stage reads
(the optional output path is unused there). Rust `Arc<RwLock<...>>` cells
are modelled by their contents, and writes through a cell by rebuilding the
owning structure; `PoisonedLock` cannot arise in a single-threaded
panic-free run, so those error paths are dropped. `unreachable!()` is
modelled as `CErr.PanicUnreachable`. -/

/-- `REPEAT_SECTION_SUFFIX` (src/_compiler.rs 10). -/
def REPEAT_SECTION_SUFFIX : Str := "__ARGS__".data

/-- `GENERATOR_SUFFIX` (src/_compiler.rs 11). -/
def GENERATOR_SUFFIX : Str := "__GENERATOR__".data

/-- `Fallbacks` (src/config.rs 314). -/
structure Fallbacks where
  unparity : Preprocessable Str
  empty : Preprocessable Str
deriving DecidableEq, Repr

/-- `Generator` (src/config.rs 334). The `repeat` field is renamed
`repeatS`: `repeat` is a Lean keyword. -/
structure Generator where
  fallbacks : Fallbacks
  preamble : Preprocessable Str
  repeatS : Preprocessable Str
  postamble : Preprocessable Str
deriving DecidableEq, Repr

/-- `NamedArgument` (src/config.rs 404). -/
structure NamedArgument where
  key : Str
  name : Preprocessable Str
deriving DecidableEq, Repr

/-- `Argument` (src/config.rs 420). -/
inductive Argument
  | Named (named : NamedArgument)
  | Varadict (varadict : Nat)
deriving DecidableEq, Repr

/-- `Core` (src/config.rs 427). -/
structure Core where
  xmva : Preprocessable Str
  args : List Argument
deriving DecidableEq, Repr

/-- `Common` (src/config.rs 72); the output path is omitted (unused by the
compile stage). -/
structure Common where
  keyable : CommonKeyable
  repeats : Nat
deriving DecidableEq, Repr

/-- `Definition` (src/config.rs 285). -/
structure Definition where
  key : Str
  name : Preprocessable Name
  parameters : Option (List Str)
  expansion : Preprocessable Str
deriving DecidableEq, Repr

/-- `Key` (src/config.rs 297). -/
structure Key where
  key : Str
  name : Preprocessable Name
deriving DecidableEq, Repr

/-- `Preamble` (src/config.rs 305). -/
structure Preamble where
  raw : Option (Preprocessable Str)
  keys : Option (List Key)
deriving DecidableEq, Repr

/-- `Config` (src/config.rs 447). -/
structure Config where
  common : Common
  preamble : Option Preamble
  definition : Option (List Definition)
  core : Core
  generator : List Generator
deriving DecidableEq, Repr

/-- `generate_repeat_name` (src/_compiler.rs 533-547). -/
def generateRepeatName (common : Common) (n : Nat) (suffix : Nat) : Str :=
  common.keyable.pfx ++ REPEAT_SECTION_SUFFIX ++ (Nat.repr suffix).data
    ++ ['_'] ++ (Nat.repr n).data

/-- `generate_repeat_picker_macro_name` (src/_compiler.rs 549-560). -/
def generateRepeatPickerMacroName (common : Common) (suffix : Nat) : Str :=
  common.keyable.pfx ++ REPEAT_SECTION_SUFFIX ++ (Nat.repr suffix).data

/-- `generate_generator_macro_name` (src/_compiler.rs 825-836). -/
def generateGeneratorMacroName (common : Common) (suffix : Nat) : Str :=
  common.keyable.pfx ++ GENERATOR_SUFFIX ++ (Nat.repr suffix).data

/-- Rust `Vec::<String>::join(", ")`. -/
def joinArgs : List Str → Str
  | [] => []
  | [x] => x
  | x :: rest => x ++ ", ".data ++ joinArgs rest

/-- The placeholder parameter name of slot `i`: two underscores, the decimal
of `i`, two underscores. -/
def argPlaceholder (i : Nat) : Str := "__".data ++ (Nat.repr i).data ++ "__".data

/-- The read-and-match pattern applied to every shared cell during the
compile stage: a still-unpreprocessed content is a `NotPreprocessed`
error. -/
def readPreprocessed {α : Type} : Preprocessable α → Except CErr Str
  | .NotPreprocessed _ => .error .NotPreprocessed
  | .Preprocessed s => .ok s

/-- The `core.args` loop of `compile_and_assemble_repeat_string` and
`assemble_main_macro_string` (src/_compiler.rs 674-717 and 921-956): collect
the named-argument names in order, record the varadict count, reject a
second varadict with `DuplicateArgument`. -/
def argsLoop : List Argument → List Str → Option Nat →
    Except CErr (List Str × Option Nat)
  | [], named, va => .ok (named, va)
  | .Named nd :: rest, named, va =>
    match nd.name with
    | .NotPreprocessed _ => .error .NotPreprocessed
    | .Preprocessed s => argsLoop rest (named ++ [s]) va
  | .Varadict v :: rest, named, va =>
    match va with
    | some _ => .error .DuplicateArgument
    | none => argsLoop rest named (some v)

/-- One token of the repeat body in iteration `i` of `j` total
(src/_compiler.rs 762-790): `unreachable!()` on a named reference. -/
def repeatBodyToken (vaArgs j i : Nat) : CompilerToken → Except CErr Str
  | .NamedArgumentRef _ => .error .PanicUnreachable
  | .Raw s => .ok s
  | .Position => .ok (Nat.repr (i + 1)).data
  | .UnamedArgumentRef n => .ok (argPlaceholder (n + i * vaArgs))
  | .SkipLast s => .ok (if j - 1 ≠ i then s else [])

/-- The inner token loop of a repeat-body iteration. -/
def appendTokens (vaArgs j i : Nat) : List CompilerToken → Str → Except CErr Str
  | [], acc => .ok acc
  | t :: ts, acc =>
    match repeatBodyToken vaArgs j i t with
    | .error e => .error e
    | .ok s => appendTokens vaArgs j i ts (acc ++ s)

/-- The `for i in 0..j` loop over repeat-body iterations. -/
def repeatItersGo (tokens : List CompilerToken) (vaArgs j : Nat) :
    List Nat → Str → Except CErr Str
  | [], acc => .ok acc
  | i :: rest, acc =>
    match appendTokens vaArgs j i tokens acc with
    | .error e => .error e
    | .ok acc2 => repeatItersGo tokens vaArgs j rest acc2

/-- The body of the count-`c` macro (src/_compiler.rs 755-800): parity check,
then preamble, `c / vaArgs` iterations and postamble, or the unparity
fallback. Rust `c % 0` panics; a zero group size is `PanicUnreachable`. -/
def repeatBody (preamble postamble fallbackUnparity : Str)
    (tokens : List CompilerToken) (vaArgs c : Nat) : Except CErr Str :=
  if vaArgs = 0 then .error .PanicUnreachable
  else if c % vaArgs = 0 then
    match repeatItersGo tokens vaArgs (c / vaArgs) (List.range (c / vaArgs)) preamble with
    | .error e => .error e
    | .ok s => .ok (s ++ postamble)
  else .ok fallbackUnparity

/-- The header of the count-`c` macro (src/_compiler.rs 745-756): the macro
name, the named arguments and `c` placeholder slots. -/
def repeatMacroHeader (common : Common) (suffix : Nat) (namedArgs : List Str)
    (c : Nat) : Str :=
  "#define ".data ++ generateRepeatName common c suffix ++ ['(']
    ++ joinArgs namedArgs ++ ", ".data
    ++ joinArgs ((List.range c).map argPlaceholder) ++ [')', ' ']

/-- The macro line emitted for count `c` (src/_compiler.rs 745-804): header,
body, newline. -/
def repeatMacroLine (common : Common) (suffix : Nat) (namedArgs : List Str)
    (preamble postamble fallbackUnparity : Str) (tokens : List CompilerToken)
    (vaArgs c : Nat) : Except CErr Str :=
  match repeatBody preamble postamble fallbackUnparity tokens vaArgs c with
  | .error e => .error e
  | .ok body =>
    .ok (repeatMacroHeader common suffix namedArgs c ++ body ++ ['\n'])

/-- The `for current_repetiton in 1..common.repeats` loop. -/
def repeatLinesGo (common : Common) (suffix : Nat) (namedArgs : List Str)
    (preamble postamble fallbackUnparity : Str) (tokens : List CompilerToken)
    (vaArgs : Nat) : List Nat → Str → Except CErr Str
  | [], acc => .ok acc
  | c :: cs, acc =>
    match repeatMacroLine common suffix namedArgs preamble postamble
        fallbackUnparity tokens vaArgs c with
    | .error e => .error e
    | .ok line =>
      repeatLinesGo common suffix namedArgs preamble postamble
        fallbackUnparity tokens vaArgs cs (acc ++ line)

/-- The picker macro line closing `compile_and_assemble_repeat_string`
(src/_compiler.rs 805-821): `repeats` placeholder slots, the `__NAME__`
sentinel slot, a trailing capture, and the sentinel as the body. -/
def pickerLine (common : Common) (suffix : Nat) : Str :=
  "#define ".data ++ generateRepeatPickerMacroName common suffix ++ ['(']
    ++ joinArgs ((List.range common.repeats).map argPlaceholder)
    ++ ", __NAME__, ...) __NAME__".data

/-- The count-0 macro line (src/_compiler.rs 740-748): named arguments only,
with the (surface-compiled) empty fallback as the body. -/
def repeatZeroLine (common : Common) (suffix : Nat) (namedArgs : List Str)
    (fallbackEmpty : Str) : Str :=
  "#define ".data ++ generateRepeatName common 0 suffix
    ++ ['('] ++ joinArgs namedArgs ++ [')', ' '] ++ fallbackEmpty ++ ['\n']

/-- `compile_and_assemble_repeat_string` (src/_compiler.rs 562-823): read the
generator strings (`fallbacks.empty` is read twice, the first value
discarded), collect the named arguments and the varadict count, tokenize the
repeat string, then emit the count-0 macro with the empty fallback, the
count `1..repeats` macros, and the picker. -/
def compileAndAssembleRepeatString (generator : Generator) (common : Common)
    (core : Core) (suffix : Nat) : Except CErr Str :=
  match readPreprocessed generator.fallbacks.empty with
  | .error e => .error e
  | .ok _ =>
    match readPreprocessed generator.fallbacks.unparity with
    | .error e => .error e
    | .ok fallbackUnparity =>
      match readPreprocessed generator.fallbacks.empty with
      | .error e => .error e
      | .ok fallbackEmpty =>
        match readPreprocessed generator.preamble with
        | .error e => .error e
        | .ok preamble =>
          match readPreprocessed generator.postamble with
          | .error e => .error e
          | .ok postamble =>
            match argsLoop core.args [] none with
            | .error e => .error e
            | .ok (namedArgs, someVaArgs) =>
              match someVaArgs with
              | none => .error .NonExistantArgument
              | some vaArgs =>
                match readPreprocessed generator.repeatS with
                | .error e => .error e
                | .ok leStranger =>
                  match tokenize leStranger with
                  | .error e => .error e
                  | .ok leTokens =>
                    match repeatLinesGo common suffix namedArgs preamble
                        postamble fallbackUnparity leTokens vaArgs
                        (List.range' 1 (common.repeats - 1))
                        (repeatZeroLine common suffix namedArgs fallbackEmpty) with
                    | .error e => .error e
                    | .ok body => .ok (body ++ pickerLine common suffix)

/-- The named-arguments `HashMap`, as an association list. -/
abbrev NamedTable := List (Str × Preprocessable Str)

/-- `HashMap` lookup on the association list. -/
def namedLookup : NamedTable → Str → Option (Preprocessable Str)
  | [], _ => none
  | (k, v) :: rest, key => if k = key then some v else namedLookup rest key

/-- `Config::load_named_arguments` (src/_compiler.rs 992-1019): insert each
named argument keyed by its `key`, failing on a duplicate. -/
def loadNamedArgumentsGo : List Argument → NamedTable → Except CErr NamedTable
  | [], table => .ok table
  | .Named nd :: rest, table =>
    match namedLookup table nd.key with
    | some _ => .error .DuplicateArgument
    | none => loadNamedArgumentsGo rest (table ++ [(nd.key, nd.name)])
  | .Varadict _ :: rest, table => loadNamedArgumentsGo rest table

/-- `Config::load_named_arguments`, from the config. -/
def Config.loadNamedArguments (c : Config) : Except CErr NamedTable :=
  loadNamedArgumentsGo c.core.args []

/-- The token loop of `compile_surface_string` (src/_compiler.rs 460-494):
`Raw` copies through, a named reference is replaced by its (preprocessed)
value, any other token is `unreachable!()`. -/
def surfaceAssembleGo (named : NamedTable) : List CompilerToken → Str → Except CErr Str
  | [], acc => .ok acc
  | .Raw v :: ts, acc => surfaceAssembleGo named ts (acc ++ v)
  | .NamedArgumentRef v :: ts, acc =>
    match namedLookup named v with
    | none => .error .NonExistantArgument
    | some entry =>
      match entry with
      | .NotPreprocessed _ => .error .NotPreprocessed
      | .Preprocessed s => surfaceAssembleGo named ts (acc ++ s)
  | _ :: _, _ => .error .PanicUnreachable

/-- `compile_surface_string` (src/_compiler.rs 427-515): surface-tokenize the
cell content, substitute named arguments, and write the result back through
the shared cell. -/
def compileSurfaceString (compilableString : Preprocessable Str)
    (named : NamedTable) : Except CErr (Preprocessable Str) :=
  match compilableString with
  | .NotPreprocessed _ => .error .NotPreprocessed
  | .Preprocessed inner =>
    match tokenizeSurface inner with
    | .error e => .error e
    | .ok tokens =>
      match surfaceAssembleGo named tokens [] with
      | .error e => .error e
      | .ok s => .ok (.Preprocessed s)

/-- The writes of `compile_surface_strings` through the five shared cells of
one generator, in the order `load_surface_compilable_strings` pushes them
(src/_compiler.rs 1021-1044): empty, unparity, postamble, preamble, and the
repeat string itself. -/
def compileSurfaceGenerator (g : Generator) (named : NamedTable) :
    Except CErr Generator :=
  match compileSurfaceString g.fallbacks.empty named with
  | .error e => .error e
  | .ok emp =>
    match compileSurfaceString g.fallbacks.unparity named with
    | .error e => .error e
    | .ok unp =>
      match compileSurfaceString g.postamble named with
      | .error e => .error e
      | .ok post =>
        match compileSurfaceString g.preamble named with
        | .error e => .error e
        | .ok pre =>
          match compileSurfaceString g.repeatS named with
          | .error e => .error e
          | .ok rep => .ok ⟨⟨unp, emp⟩, pre, rep, post⟩

/-- `compile_surface_strings` (src/_compiler.rs 517-537) over the generator
list. -/
def compileSurfaceGenerators (named : NamedTable) :
    List Generator → Except CErr (List Generator)
  | [] => .ok []
  | g :: gs =>
    match compileSurfaceGenerator g named with
    | .error e => .error e
    | .ok g2 =>
      match compileSurfaceGenerators named gs with
      | .error e => .error e
      | .ok gs2 => .ok (g2 :: gs2)

/-- The named-arguments-only loop of `assemble_generator_macro_string`
(src/_compiler.rs 845-871): varadict entries are skipped with no
bookkeeping. -/
def namedArgsOnly : List Argument → Except CErr (List Str)
  | [] => .ok []
  | .Named nd :: rest =>
    match nd.name with
    | .NotPreprocessed _ => .error .NotPreprocessed
    | .Preprocessed s =>
      match namedArgsOnly rest with
      | .error e => .error e
      | .ok l => .ok (s :: l)
  | .Varadict _ :: rest => namedArgsOnly rest

/-- `assemble_generator_macro_string` (src/_compiler.rs 839-891). -/
def assembleGeneratorMacroString (common : Common) (core : Core)
    (suffix : Nat) : Except CErr Str :=
  match namedArgsOnly core.args with
  | .error e => .error e
  | .ok namedArgs =>
    .ok ("#define ".data ++ generateGeneratorMacroName common suffix ++ ['(']
      ++ joinArgs namedArgs ++ ", __GEN__, ...".data ++ [')', ' ']
      ++ "__GEN__(".data ++ joinArgs namedArgs ++ ", __VA_ARGS__)".data
      ++ ['\n'])

/-- One generator call in the main macro body (src/_compiler.rs 965-983):
the generator macro applied to the named arguments, the picker applied to
the `"empty"` literal, the caller arguments and the reversed repeat names,
and the caller arguments. -/
def mainMacroCall (common : Common) (namedArgs : List Str) (i : Nat) : Str :=
  generateGeneratorMacroName common i ++ ['(']
    ++ joinArgs namedArgs ++ ", ".data
    ++ generateRepeatPickerMacroName common i
    ++ "(\"empty\", ##__VA_ARGS__, ".data
    ++ joinArgs (((List.range common.repeats).map
        (fun j => generateRepeatName common j i)).reverse)
    ++ "), __VA_ARGS__) ".data

/-- `assemble_main_macro_string` (src/_compiler.rs 894-987): read the core
macro name, run the args loop (the varadict count is collected, checked for
duplicates, and then unused), and emit the outer macro. -/
def assembleMainMacroString (core : Core) (common : Common)
    (generatorCount : Nat) : Except CErr Str :=
  match readPreprocessed core.xmva with
  | .error e => .error e
  | .ok xmva =>
    match argsLoop core.args [] none with
    | .error e => .error e
    | .ok (namedArgs, _) =>
      .ok ("#define ".data ++ xmva ++ ['('] ++ joinArgs namedArgs
        ++ ", ...) ".data
        ++ ((List.range generatorCount).map (mainMacroCall common namedArgs)).flatten)

/-- One `#define` line of the preamble definitions
(src/_compiler.rs 1086-1147). -/
def definitionLine (d : Definition) : Except CErr Str :=
  match d.name with
  | .NotPreprocessed _ => .error .NotPreprocessed
  | .Preprocessed name =>
    match d.expansion with
    | .NotPreprocessed _ => .error .NotPreprocessed
    | .Preprocessed expansion =>
      .ok ("#define ".data ++ name
        ++ (match d.parameters with
            | some ps => ['('] ++ joinArgs ps ++ [')']
            | none => [])
        ++ [' '] ++ expansion ++ ['\n'])

/-- The loop over the optional definition list. -/
def definitionsGo : List Definition → Str → Except CErr Str
  | [], acc => .ok acc
  | d :: ds, acc =>
    match definitionLine d with
    | .error e => .error e
    | .ok line => definitionsGo ds (acc ++ line)

/-- `Config::assemble_preamble` (src/_compiler.rs 1048-1153): the optional
raw preamble followed by the `#define` lines of the optional definitions. -/
def Config.assemblePreamble (c : Config) : Except CErr Str :=
  match (match c.preamble with
         | some p =>
           match p.raw with
           | some r =>
             match r with
             | .NotPreprocessed _ => Except.error CErr.NotPreprocessed
             | .Preprocessed s => Except.ok (s ++ ['\n'])
           | none => Except.ok []
         | none => Except.ok []) with
  | .error e => .error e
  | .ok base =>
    match c.definition with
    | some ds => definitionsGo ds base
    | none => .ok base

/-- The enumerated generator loop of `compile_and_assemble`
(src/_compiler.rs 1179-1199): per generator, the compiled repeat string and
the generator macro string. -/
def generatorLoop (common : Common) (core : Core) :
    List Generator → Nat → Except CErr (List Str × List Str)
  | [], _ => .ok ([], [])
  | g :: gs, i =>
    match compileAndAssembleRepeatString g common core i with
    | .error e => .error e
    | .ok r =>
      match assembleGeneratorMacroString common core i with
      | .error e => .error e
      | .ok gm =>
        match generatorLoop common core gs (i + 1) with
        | .error e => .error e
        | .ok (rs, gms) => .ok (r :: rs, gm :: gms)

/-- `Config::compile_and_assemble` (src/_compiler.rs 1157-1220): load the
named arguments, surface compile the generator strings (the writes go
through the shared cells, so every later stage sees the surface-compiled
generators), assemble the preamble, the per-generator repeat and generator
macros and the main macro, and join the file. -/
def Config.compileAndAssemble (c : Config) : Except CErr Str :=
  match c.loadNamedArguments with
  | .error e => .error e
  | .ok named =>
    match compileSurfaceGenerators named c.generator with
    | .error e => .error e
    | .ok gens2 =>
      let c2 : Config := ⟨c.common, c.preamble, c.definition, c.core, gens2⟩
      match c2.assemblePreamble with
      | .error e => .error e
      | .ok preamble =>
        match generatorLoop c2.common c2.core c2.generator 0 with
        | .error e => .error e
        | .ok (repeats, generators) =>
          match assembleMainMacroString c2.core c2.common c2.generator.length with
          | .error e => .error e
          | .ok xmva =>
            .ok (preamble ++ ['\n'] ++ List.intercalate ['\n'] repeats ++ ['\n']
              ++ List.intercalate ['\n'] generators ++ ['\n'] ++ xmva)

/-- Whether a token is a named-argument reference. -/
def isNamedRef : CompilerToken → Bool
  | .NamedArgumentRef _ => true
  | _ => false

/-- Whether an argument is the varadict declaration. -/
def isVaradict : Argument → Bool
  | .Varadict _ => true
  | _ => false

/-- The number of varadict declarations in an argument list. -/
def vaCount (args : List Argument) : Nat := (args.filter isVaradict).length

/-- Claim-side per-token expansion for iteration `i` of `j`, following the
specification wording: `Raw` copies through, `Position` emits the decimal of
`i + 1`, an indexed reference `n` emits the placeholder name of slot
`n + i * V`, `SkipLast` is suppressed exactly in the last iteration. A named
reference cannot occur in a repeat body and contributes nothing. -/
def claimIterToken (V j i : Nat) : CompilerToken → Str
  | .Raw s => s
  | .Position => (Nat.repr (i + 1)).data
  | .UnamedArgumentRef n => argPlaceholder (n + i * V)
  | .SkipLast s => if i = j - 1 then [] else s
  | .NamedArgumentRef _ => []

/-- Claim-side body for trailing-argument count `c`, following the
specification wording: the unparity fallback when `c` is not a multiple of
the group size, otherwise the preamble, `j = c / V` expansions of the repeat
body, and the postamble. -/
def claimBody (preamble postamble fallbackUnparity : Str)
    (tokens : List CompilerToken) (V c : Nat) : Str :=
  if c % V = 0 then
    preamble
      ++ ((List.range (c / V)).map
          (fun i => (tokens.map (claimIterToken V (c / V) i)).flatten)).flatten
      ++ postamble
  else fallbackUnparity

/-- Claim-side picker macro, following the specification wording: its
parameter list is exactly `R` placeholder slots, the `__NAME__` sentinel
slot and a trailing variadic capture, and its body is just the sentinel
slot. -/
def c9PickerSpec (common : Common) (suffix R : Nat) : Str :=
  "#define ".data ++ generateRepeatPickerMacroName common suffix ++ ['(']
    ++ joinArgs ((List.range R).map argPlaceholder
        ++ ["__NAME__".data, "...".data])
    ++ [')', ' '] ++ "__NAME__".data

/-- Claim-side generator call in the outer macro body, following the
specification wording: the generator's entry macro applied to the named
arguments, the picker applied to (the `"empty"` literal with paste-eating
`##` on the caller arguments, the caller arguments, the reversed repeat
names), and the caller arguments. -/
def c9MainCallSpec (common : Common) (namedArgs : List Str) (i : Nat) : Str :=
  generateGeneratorMacroName common i ++ ['(']
    ++ joinArgs (namedArgs
        ++ [generateRepeatPickerMacroName common i ++ ['(']
            ++ joinArgs ("\"empty\"".data :: "##__VA_ARGS__".data ::
                ((List.range common.repeats).map
                    (fun j => generateRepeatName common j i)).reverse)
            ++ [')'],
          "__VA_ARGS__".data])
    ++ [')', ' ']

/-- A concrete generator whose repeat string `"$(00)"` is legal but not
canonically spelled. -/
def c5gen : Generator :=
  ⟨⟨.Preprocessed [], .Preprocessed []⟩, .Preprocessed [],
    .Preprocessed ['$', '(', '0', '0', ')'], .Preprocessed []⟩

/-- A concrete config with no generators and no varadict declaration. -/
def c10cfg : Config :=
  ⟨⟨⟨[]⟩, 0⟩, none, none, ⟨.Preprocessed ['m'], []⟩, []⟩

/-- A concrete generator with all strings preprocessed, used to exercise the
repeat compiler. -/
def gW : Generator :=
  ⟨⟨.Preprocessed ['u'], .Preprocessed ['e']⟩, .Preprocessed ['p'],
    .Preprocessed ['$', '(', '0', ')', '$', '[', ',', ']'], .Preprocessed ['q']⟩

/-- A concrete common section: prefix `X`, three repeats. -/
def commonW : Common := ⟨⟨['X']⟩, 3⟩

/-- A concrete core: one named argument and a varadict group size of one. -/
def coreW : Core :=
  ⟨.Preprocessed ['m'], [.Named ⟨['k'], .Preprocessed ['n']⟩, .Varadict 1]⟩

/-- A concrete core with no varadict declaration. -/
def coreZeroW : Core := ⟨.Preprocessed ['m'], [.Named ⟨['k'], .Preprocessed ['n']⟩]⟩

/-- A concrete core with two varadict declarations. -/
def coreTwoW : Core := ⟨.Preprocessed ['m'], [.Varadict 1, .Varadict 2]⟩

end Xmva


namespace Xmva

/-! Sanity checks against the Rust unit tests of src/compiler.rs. -/

example :
    tokenize ("hello world".data ++ ['$', '{'] ++ "argument".data ++ ['}']) =
      .ok [.Raw "hello world".data, .NamedArgumentRef "argument".data] := by
  decide

example : tokenize ['\\', '$'] = .ok [.Raw ['$']] := by decide

example : tokenize ['\\', '\\'] = .ok [.Raw ['\\']] := by decide

example : tokenize ['\\'] = .error .IllegalSymbol := by decide

example : tokenize ['\\', 's'] = .error .IllegalSymbol := by decide

example : tokenize ['$', '{', '}'] = .error .EmptyReference := by decide

example : tokenize ['$', '(', ')'] = .error .EmptyReference := by decide

example : tokenize ['$', '[', ']'] = .error .EmptyReference := by decide

example : tokenize ['$', '{', '{', '}'] = .error .IllegalSymbol := by decide

example : tokenize ['$', '(', '(', ')'] = .error .IllegalSymbol := by decide

example : tokenize ['$', '[', '[', ']'] = .ok [.SkipLast ['[']] := by decide

example :
    tokenize ['$', '[', '\\', '\\', 'n', '\\', '\\', '$', '\\', '\\', '\\', '\\', '%', '\\', ']', ']'] =
      .ok [.SkipLast ['\\', 'n', '\\', '$', '\\', '\\', '%', ']']] := by
  decide

/-! ## Character classification facts -/

/-- Only `$` classifies as `TokenStart`. -/
lemma fromChar_TokenStart {c : Char} (h : CompilerSigil.fromChar c = .TokenStart) : c = '$' := by
  unfold CompilerSigil.fromChar at h; split_ifs at h <;> simp_all

/-- Only `\` classifies as `TokenEmbed`. -/
lemma fromChar_TokenEmbed {c : Char} (h : CompilerSigil.fromChar c = .TokenEmbed) : c = '\\' := by
  unfold CompilerSigil.fromChar at h; split_ifs at h <;> simp_all

/-- Only `.` classifies as `PositionDot`. -/
lemma fromChar_PositionDot {c : Char} (h : CompilerSigil.fromChar c = .PositionDot) : c = '.' := by
  unfold CompilerSigil.fromChar at h; split_ifs at h <;> simp_all

/-- Only `{` classifies as `NamedArgumentRefOpen`. -/
lemma fromChar_NamedOpen {c : Char}
    (h : CompilerSigil.fromChar c = .NamedArgumentRefOpen) : c = '{' := by
  unfold CompilerSigil.fromChar at h; split_ifs at h <;> simp_all

/-- Only `}` classifies as `NamedArgumentRefClose`. -/
lemma fromChar_NamedClose {c : Char}
    (h : CompilerSigil.fromChar c = .NamedArgumentRefClose) : c = '}' := by
  unfold CompilerSigil.fromChar at h; split_ifs at h <;> simp_all

/-- Only `(` classifies as `UnamedArgumentRefOpen`. -/
lemma fromChar_UnamedOpen {c : Char}
    (h : CompilerSigil.fromChar c = .UnamedArgumentRefOpen) : c = '(' := by
  unfold CompilerSigil.fromChar at h; split_ifs at h <;> simp_all

/-- Only `)` classifies as `UnamedArgumentRefClose`. -/
lemma fromChar_UnamedClose {c : Char}
    (h : CompilerSigil.fromChar c = .UnamedArgumentRefClose) : c = ')' := by
  unfold CompilerSigil.fromChar at h; split_ifs at h <;> simp_all

/-- Only `[` classifies as `SkipLastOpen`. -/
lemma fromChar_SkipOpen {c : Char} (h : CompilerSigil.fromChar c = .SkipLastOpen) : c = '[' := by
  unfold CompilerSigil.fromChar at h; split_ifs at h <;> simp_all

/-- Only `]` classifies as `SkipLastClose`. -/
lemma fromChar_SkipClose {c : Char} (h : CompilerSigil.fromChar c = .SkipLastClose) : c = ']' := by
  unfold CompilerSigil.fromChar at h; split_ifs at h <;> simp_all

/-- A character classifying as `Non` is itself and is none of the sigils. -/
lemma fromChar_Non {c c' : Char} (h : CompilerSigil.fromChar c = .Non c') :
    c' = c ∧ c ≠ '$' ∧ c ≠ '\\' ∧ c ≠ '.' ∧ c ≠ '{' ∧ c ≠ '}' ∧
      c ≠ '(' ∧ c ≠ ')' ∧ c ≠ '[' ∧ c ≠ ']' := by
  unfold CompilerSigil.fromChar at h; split_ifs at h <;> simp_all

/-! ## Escaping lemmas -/

/-- `escRaw` distributes over append. -/
lemma escRaw_append (a b : Str) : escRaw (a ++ b) = escRaw a ++ escRaw b := by
  simp [escRaw]

/-- `escSkip` distributes over append. -/
lemma escSkip_append (a b : Str) : escSkip (a ++ b) = escSkip a ++ escSkip b := by
  simp [escSkip]

/-- A character that needs no raw escaping is untouched by `escRaw`. -/
lemma escRaw_singleton {c : Char} (h1 : c ≠ '\\') (h2 : c ≠ '$') : escRaw [c] = [c] := by
  simp [escRaw, h1, h2]

/-- A character that needs no skip-last escaping is untouched by `escSkip`. -/
lemma escSkip_singleton {c : Char} (h1 : c ≠ '\\') (h2 : c ≠ ']') : escSkip [c] = [c] := by
  simp [escSkip, h1, h2]

/-- The two sequential single-character replaces of `untokenize` on a `Raw`
body equal the fused escape `escRaw`. -/
lemma repl_comp_raw (v : Str) :
    replChar '$' ['\\', '$'] (replChar '\\' ['\\', '\\'] v) = escRaw v := by
  induction v with
  | nil => rfl
  | cons c v ih =>
    by_cases h1 : c = '\\'
    · subst h1
      simp only [replChar, escRaw, List.flatMap_cons, List.flatMap_append] at *
      simp [ih]
    · by_cases h2 : c = '$'
      · subst h2
        simp only [replChar, escRaw, List.flatMap_cons, List.flatMap_append] at *
        simp [ih]
      · simp only [replChar, escRaw, List.flatMap_cons, List.flatMap_append] at *
        simp [h1, h2, ih]

/-- The two sequential single-character replaces of `untokenize` on a
`SkipLast` body equal the fused escape `escSkip`. -/
lemma repl_comp_skip (v : Str) :
    replChar ']' ['\\', ']'] (replChar '\\' ['\\', '\\'] v) = escSkip v := by
  induction v with
  | nil => rfl
  | cons c v ih =>
    by_cases h1 : c = '\\'
    · subst h1
      simp only [replChar, escSkip, List.flatMap_cons, List.flatMap_append] at *
      simp [ih]
    · by_cases h2 : c = ']'
      · subst h2
        simp only [replChar, escSkip, List.flatMap_cons, List.flatMap_append] at *
        simp [ih]
      · simp only [replChar, escSkip, List.flatMap_cons, List.flatMap_append] at *
        simp [h1, h2, ih]

/-! ## Erasure: the source tokenizer is the instrumented one with bodies
forgotten -/

/-- One step of the source machine is the erased step of the instrumented
machine. -/
lemma cstep_eq_erase (st : CState) (c : Char) :
    cstep st c = (cstepB st c).map (fun p => (p.1.map eraseB, p.2)) := by
  cases st <;> cases hch : CompilerSigil.fromChar c <;>
    simp only [cstep, cstepB, hch] <;>
    (repeat' split) <;>
    simp_all [Except.map, eraseB]

/-- End-of-input handling agrees up to erasure. -/
lemma cfinal_eq_erase (st : CState) :
    cfinal st = (cfinalB st).map (List.map eraseB) := by
  cases st <;> simp [cfinal, cfinalB, Except.map, eraseB] <;>
    split <;> simp [eraseB]

/-- The tokenizer loops agree up to erasure. -/
lemma tokenizeGo_eq_erase (cs : Str) :
    ∀ st, tokenizeGo st cs = (tokenizeGoB st cs).map (List.map eraseB) := by
  induction cs with
  | nil =>
    intro st
    simpa [tokenizeGo, tokenizeGoB] using cfinal_eq_erase st
  | cons c cs ih =>
    intro st
    simp only [tokenizeGo, tokenizeGoB]
    rw [cstep_eq_erase]
    cases hB : cstepB st c with
    | error e => simp [Except.map]
    | ok p =>
      obtain ⟨em, st'⟩ := p
      simp only [Except.map]
      rw [ih st']
      cases tokenizeGoB st' cs <;> simp [Except.map]

/-- `tokenize` is the instrumented tokenizer with recorded bodies forgotten. -/
lemma tokenize_eq_erase (s : Str) :
    tokenize s = (tokenizeB s).map (List.map eraseB) :=
  tokenizeGo_eq_erase s _

/-! ## Exactness of the instrumented inverse -/

/-- Each accepted step preserves the pending-source accounting: the printed
form of what it emits plus the new pending text equals the old pending text
plus the consumed character. -/
lemma cstepB_src {st : CState} {c : Char} {em : List CompilerTokenB} {st' : CState}
    (h : cstepB st c = .ok (em, st')) :
    (em.map untokenizeB).flatten ++ stateSrc st' = stateSrc st ++ [c] := by
  cases st with
  | Copying buf =>
    cases hch : CompilerSigil.fromChar c <;>
      simp only [cstepB, hch, Except.ok.injEq, Prod.mk.injEq] at h <;>
      try exact Except.noConfusion h
    case TokenStart =>
      obtain ⟨h1, h2⟩ := h
      subst h2
      rw [fromChar_TokenStart hch]
      by_cases hb : buf = [] <;> simp [hb, ← h1, stateSrc, untokenizeB, escRaw]
    case TokenEmbed =>
      obtain ⟨h1, h2⟩ := h
      subst h2
      rw [fromChar_TokenEmbed hch]
      simp [← h1, stateSrc]
    case Non c' =>
      obtain ⟨h1, h2⟩ := h
      subst h2
      obtain ⟨-, hd, hb, -⟩ := fromChar_Non hch
      simp [← h1, stateSrc, escRaw_append, escRaw_singleton hb hd]
    all_goals
      obtain ⟨h1, h2⟩ := h
      subst h2
      first
      | (rw [fromChar_PositionDot hch]
         simp [← h1, stateSrc, escRaw_append, escRaw])
      | (rw [fromChar_NamedOpen hch]
         simp [← h1, stateSrc, escRaw_append, escRaw])
      | (rw [fromChar_NamedClose hch]
         simp [← h1, stateSrc, escRaw_append, escRaw])
      | (rw [fromChar_UnamedOpen hch]
         simp [← h1, stateSrc, escRaw_append, escRaw])
      | (rw [fromChar_UnamedClose hch]
         simp [← h1, stateSrc, escRaw_append, escRaw])
      | (rw [fromChar_SkipOpen hch]
         simp [← h1, stateSrc, escRaw_append, escRaw])
      | (rw [fromChar_SkipClose hch]
         simp [← h1, stateSrc, escRaw_append, escRaw])
  | EmbedFound buf =>
    cases hch : CompilerSigil.fromChar c <;>
      simp only [cstepB, hch, Except.ok.injEq, Prod.mk.injEq] at h <;>
      try exact Except.noConfusion h
    case TokenStart =>
      obtain ⟨h1, h2⟩ := h
      subst h2
      rw [fromChar_TokenStart hch]
      simp [← h1, stateSrc, escRaw_append, escRaw]
    case TokenEmbed =>
      obtain ⟨h1, h2⟩ := h
      subst h2
      rw [fromChar_TokenEmbed hch]
      simp [← h1, stateSrc, escRaw_append, escRaw]
  | SigilFound =>
    cases hch : CompilerSigil.fromChar c <;>
      simp only [cstepB, hch, Except.ok.injEq, Prod.mk.injEq] at h <;>
      try exact Except.noConfusion h
    case PositionDot =>
      obtain ⟨h1, h2⟩ := h
      subst h2
      rw [fromChar_PositionDot hch]
      simp [← h1, stateSrc, untokenizeB, escRaw]
    case NamedArgumentRefOpen =>
      obtain ⟨h1, h2⟩ := h
      subst h2
      rw [fromChar_NamedOpen hch]
      simp [← h1, stateSrc]
    case UnamedArgumentRefOpen =>
      obtain ⟨h1, h2⟩ := h
      subst h2
      rw [fromChar_UnamedOpen hch]
      simp [← h1, stateSrc]
    case SkipLastOpen =>
      obtain ⟨h1, h2⟩ := h
      subst h2
      rw [fromChar_SkipOpen hch]
      simp [← h1, stateSrc, escSkip]
  | CopyingNamedArgumentRef buf =>
    cases hch : CompilerSigil.fromChar c <;>
      simp only [cstepB, hch, Except.ok.injEq, Prod.mk.injEq] at h <;>
      try exact Except.noConfusion h
    case NamedArgumentRefClose =>
      by_cases hb : buf = [] <;> simp [hb] at h
      obtain ⟨h1, h2⟩ := h
      subst h2
      rw [fromChar_NamedClose hch]
      simp [← h1, stateSrc, untokenizeB, escRaw]
    case PositionDot =>
      obtain ⟨h1, h2⟩ := h
      subst h2
      rw [fromChar_PositionDot hch]
      simp [← h1, stateSrc]
    case Non c' =>
      obtain ⟨h1, h2⟩ := h
      subst h2
      obtain ⟨he, -⟩ := fromChar_Non hch
      subst he
      simp [← h1, stateSrc]
  | CopyingUnamedArgumentRef buf =>
    cases hch : CompilerSigil.fromChar c <;>
      simp only [cstepB, hch, Except.ok.injEq, Prod.mk.injEq] at h <;>
      try exact Except.noConfusion h
    case UnamedArgumentRefClose =>
      by_cases hb : buf = [] <;> simp [hb] at h
      cases hp : parseUsize buf with
      | none => simp [hp] at h
      | some v =>
        simp [hp] at h
        obtain ⟨h1, h2⟩ := h
        subst h2
        rw [fromChar_UnamedClose hch]
        simp [← h1, stateSrc, untokenizeB, escRaw]
    case PositionDot =>
      obtain ⟨h1, h2⟩ := h
      subst h2
      rw [fromChar_PositionDot hch]
      simp [← h1, stateSrc]
    case Non c' =>
      obtain ⟨h1, h2⟩ := h
      subst h2
      obtain ⟨he, -⟩ := fromChar_Non hch
      subst he
      simp [← h1, stateSrc]
  | CopyingSkipLast buf =>
    cases hch : CompilerSigil.fromChar c <;>
      simp only [cstepB, hch, Except.ok.injEq, Prod.mk.injEq] at h <;>
      try exact Except.noConfusion h
    case SkipLastClose =>
      by_cases hb : buf = [] <;> simp [hb] at h
      obtain ⟨h1, h2⟩ := h
      subst h2
      rw [fromChar_SkipClose hch]
      simp [← h1, stateSrc, untokenizeB, escRaw]
    case TokenEmbed =>
      obtain ⟨h1, h2⟩ := h
      subst h2
      rw [fromChar_TokenEmbed hch]
      simp [← h1, stateSrc]
    case Non c' =>
      obtain ⟨h1, h2⟩ := h
      subst h2
      obtain ⟨-, -, hb2, -, -, -, -, -, -, hb9⟩ := fromChar_Non hch
      simp [← h1, stateSrc, escSkip_append, escSkip_singleton hb2 hb9]
    all_goals
      obtain ⟨h1, h2⟩ := h
      subst h2
      first
      | (rw [fromChar_TokenStart hch]
         simp [← h1, stateSrc, escSkip_append, escSkip])
      | (rw [fromChar_PositionDot hch]
         simp [← h1, stateSrc, escSkip_append, escSkip])
      | (rw [fromChar_NamedOpen hch]
         simp [← h1, stateSrc, escSkip_append, escSkip])
      | (rw [fromChar_NamedClose hch]
         simp [← h1, stateSrc, escSkip_append, escSkip])
      | (rw [fromChar_UnamedOpen hch]
         simp [← h1, stateSrc, escSkip_append, escSkip])
      | (rw [fromChar_UnamedClose hch]
         simp [← h1, stateSrc, escSkip_append, escSkip])
      | (rw [fromChar_SkipOpen hch]
         simp [← h1, stateSrc, escSkip_append, escSkip])
  | CopyingSkipLastEmbed buf =>
    cases hch : CompilerSigil.fromChar c <;>
      simp only [cstepB, hch, Except.ok.injEq, Prod.mk.injEq] at h <;>
      try exact Except.noConfusion h
    case TokenEmbed =>
      obtain ⟨h1, h2⟩ := h
      subst h2
      rw [fromChar_TokenEmbed hch]
      simp [← h1, stateSrc, escSkip_append, escSkip]
    case SkipLastClose =>
      obtain ⟨h1, h2⟩ := h
      subst h2
      rw [fromChar_SkipClose hch]
      simp [← h1, stateSrc, escSkip_append, escSkip]

/-- Exactness: a successful instrumented run prints back, token by token,
exactly the pending text of its starting state followed by its input. -/
lemma tokenizeGoB_exact (cs : Str) :
    ∀ st ts, tokenizeGoB st cs = .ok ts →
      (ts.map untokenizeB).flatten = stateSrc st ++ cs := by
  induction cs with
  | nil =>
    intro st ts h
    cases st <;> simp only [tokenizeGoB, cfinalB] at h <;>
      try exact Except.noConfusion h
    rename_i buf
    injection h with h
    subst h
    by_cases hb : buf = [] <;> simp [hb, stateSrc, untokenizeB, escRaw]
  | cons c cs ih =>
    intro st ts h
    simp only [tokenizeGoB] at h
    cases hstep : cstepB st c with
    | error e => simp [hstep] at h
    | ok p =>
      obtain ⟨em, st'⟩ := p
      simp only [hstep] at h
      cases hrest : tokenizeGoB st' cs with
      | error e => simp [hrest] at h
      | ok rest =>
        simp only [hrest] at h
        injection h with h
        subst h
        have hsrc := cstepB_src hstep
        have hih := ih st' rest hrest
        calc ((em ++ rest).map untokenizeB).flatten
            = (em.map untokenizeB).flatten ++ (rest.map untokenizeB).flatten := by
              simp
          _ = (em.map untokenizeB).flatten ++ (stateSrc st' ++ cs) := by rw [hih]
          _ = ((em.map untokenizeB).flatten ++ stateSrc st') ++ cs := by
              rw [List.append_assoc]
          _ = (stateSrc st ++ [c]) ++ cs := by rw [hsrc]
          _ = stateSrc st ++ c :: cs := by simp

/-- A canonically-written instrumented token prints the same through
`untokenize` after erasure as through the instrumented inverse. -/
lemma untokenize_eraseB {t : CompilerTokenB} (h : canonicalBody t = true) :
    untokenize (eraseB t) = untokenizeB t := by
  cases t with
  | Raw v => simp [eraseB, untokenize, untokenizeB, repl_comp_raw]
  | NamedArgumentRef v => rfl
  | Position => rfl
  | SkipLast v => simp [eraseB, untokenize, untokenizeB, repl_comp_skip]
  | UnamedArgumentRef body n =>
    simp only [canonicalBody, decide_eq_true_eq] at h
    simp [eraseB, untokenize, untokenizeB, h]

/-! ## Claim C1 -/

/-- C1 counterexample: the template string `"$(00)"` is syntactically legal
(it tokenizes to an indexed-argument token with value 0), but concatenating
`untokenize` over the token list prints the canonical `"$(0)"`, which differs
from the original string. The round trip `untokenize(tokenize(s)) == s`
therefore fails for this legal `s`. -/
theorem c1_roundtrip_counterexample :
    tokenize ['$', '(', '0', '0', ')'] = .ok [.UnamedArgumentRef 0] ∧
      (([CompilerToken.UnamedArgumentRef 0]).map untokenize).flatten ≠
        ['$', '(', '0', '0', ')'] := by
  decide

/-- C1 (amended): the round trip `untokenize(tokenize(s)) == s` holds for
every syntactically legal template string `s` in which every indexed-argument
body is written as the canonical decimal of its value (no leading zeros and no
sign): if the body-recording lexer accepts `s` with token list `tsB` and every
recorded body is canonical, then `tokenize` accepts `s` with the erased token
list and concatenating `untokenize` over it yields exactly `s`. -/
theorem c1_roundtrip_amended (s : Str) (tsB : List CompilerTokenB)
    (h : tokenizeB s = .ok tsB) (hc : ∀ t ∈ tsB, canonicalBody t = true) :
    tokenize s = .ok (tsB.map eraseB) ∧
      ((tsB.map eraseB).map untokenize).flatten = s := by
  have herase := tokenize_eq_erase s
  rw [h] at herase
  simp only [Except.map] at herase
  refine ⟨herase, ?_⟩
  have hex := tokenizeGoB_exact s (.Copying []) tsB h
  simp only [stateSrc, escRaw, List.flatMap_nil, List.nil_append] at hex
  calc ((tsB.map eraseB).map untokenize).flatten
      = (tsB.map untokenizeB).flatten := by
        rw [List.map_map]
        congr 1
        exact List.map_congr_left (fun t ht => untokenize_eraseB (hc t ht))
    _ = s := hex

/-- Witness for C1 (amended) at the concrete legal string `"a$(10)$[x]"`. -/
theorem c1_roundtrip_amended_witness :
    tokenize ['a', '$', '(', '1', '0', ')', '$', '[', 'x', ']'] =
        .ok [.Raw ['a'], .UnamedArgumentRef 10, .SkipLast ['x']] ∧
      (([CompilerToken.Raw ['a'], .UnamedArgumentRef 10, .SkipLast ['x']]).map
          untokenize).flatten =
        ['a', '$', '(', '1', '0', ')', '$', '[', 'x', ']'] := by
  have := c1_roundtrip_amended
    ['a', '$', '(', '1', '0', ')', '$', '[', 'x', ']']
    [.Raw ['a'], .UnamedArgumentRef ['1', '0'] 10, .SkipLast ['x']]
    (by decide) (by decide)
  simpa [eraseB] using this

/-! ## Claim C6 -/

/-- C6: for every string accepted by the template lexer, surface tokenization
returns the same token list as `tokenize` except that every token that is not
`Raw` and not `NamedArgumentRef` (i.e. `Position`, `UnamedArgumentRef`,
`SkipLast`) is replaced by a `Raw` token holding its untokenized literal text,
while `Raw` and `NamedArgumentRef` tokens are preserved unchanged. -/
theorem c6_tokenize_surface (s : Str) (ts : List CompilerToken)
    (h : tokenize s = .ok ts) :
    tokenizeSurface s = .ok (ts.map surfaceSpecMap) := by
  simp only [tokenizeSurface, h]
  congr 1
  have hfun : (fun t => match surfaceProp t with
      | some true => t
      | _ => CompilerToken.Raw (untokenize t)) = surfaceSpecMap := by
    funext t; cases t <;> rfl
  rw [hfun]

/-- Witness for C6 at the concrete string `"$.a"`. -/
theorem c6_tokenize_surface_witness :
    tokenizeSurface ['$', '.', 'a'] = .ok [.Raw ['$', '.'], .Raw ['a']] := by
  have := c6_tokenize_surface ['$', '.', 'a'] [.Position, .Raw ['a']] (by decide)
  simpa [surfaceSpecMap, untokenize] using this

/-! Sanity checks against the Rust unit tests of src/preprocessor.rs. -/

example :
    preprocessorStringTokenizer
        ("hello world".data ++ ['@', '{'] ++ "prefix".data ++ ['}']) =
      .ok [.Raw "hello world".data, .Key "prefix".data] := by
  decide

example : preprocessorStringTokenizer ['\\', '@', ' ', '\\', '\\', '\\', '\\'] =
    .ok [.Raw ['@', ' ', '\\', '\\']] := by decide

example : preprocessorStringTokenizer ['\\'] = .error .IllegalSymbol := by decide

example : preprocessorStringTokenizer ['\\', '$'] = .error .IllegalSymbol := by decide

example : preprocessorStringTokenizer ['@', '{', '}'] = .error .EmptyReference := by
  decide

example : preprocessorStringTokenizer ['@', '{', '@', '}'] = .error .IllegalSymbol := by
  decide

example : preprocessorStringTokenizer ['@', '{', '{', '}'] = .error .IllegalSymbol := by
  decide

example :
    preprocessorStringTokenizer ['@', '{', 'a', '}', '}'] =
      .ok [.Key ['a'], .Raw ['}']] := by
  decide

/-! ## The resolver loop -/

/-- Unfolding of one iteration of the sweep loop. -/
lemma preprocessLoop_step (ck : CommonKeyable) (tbl : KeyTable) (left : Nat) :
    preprocessLoop ck tbl left =
      if left = 0 then (tbl, .ok ())
      else
        match sweepGo ck tbl (tbl.map Prod.fst) 0 with
        | (tbl', .error e) => (tbl', .error e)
        | (tbl', .ok nowLeft) =>
          if left ≤ nowLeft then
            (tbl', .error (.MutualReferences (unresolvedKeyNames tbl')))
          else preprocessLoop ck tbl' nowLeft := by
  rw [preprocessLoop]
  by_cases h0 : left = 0
  · simp [h0]
  · simp only [h0, if_false]
    cases sweepGo ck tbl (tbl.map Prod.fst) 0 with
    | mk tbl' res =>
      cases res with
      | error e => rfl
      | ok nowLeft =>
        by_cases hle : left ≤ nowLeft <;> simp [hle]

/-- With any fuel exceeding the `left` counter, the fuelled loop returns the
value of the loop; the loop therefore runs at most `left + 1` iterations. -/
lemma preprocessLoopFuel_eq (ck : CommonKeyable) :
    ∀ fuel left tbl, left < fuel →
      preprocessLoopFuel ck fuel tbl left = some (preprocessLoop ck tbl left) := by
  intro fuel
  induction fuel with
  | zero => intro left tbl h; omega
  | succ fuel ih =>
    intro left tbl h
    rw [preprocessLoop_step]
    simp only [preprocessLoopFuel]
    by_cases h0 : left = 0
    · simp [h0]
    · simp only [h0, if_false]
      cases hs : sweepGo ck tbl (tbl.map Prod.fst) 0 with
      | mk tbl' res =>
        cases res with
        | error e => rfl
        | ok nowLeft =>
          by_cases hle : left ≤ nowLeft
          · simp [hle]
          · simp only [hle, if_false]
            exact ih nowLeft tbl' (by omega)

/-- Evaluation helper: a computation of the fuelled loop at sufficient fuel
computes the loop. -/
lemma preprocessLoop_eval {ck : CommonKeyable} {tbl : KeyTable} {left : Nat}
    {r : KeyTable × Except PErr Unit}
    (h : preprocessLoopFuel ck (left + 1) tbl left = some r) :
    preprocessLoop ck tbl left = r := by
  have h2 := preprocessLoopFuel_eq ck (left + 1) left tbl (by omega)
  rw [h] at h2
  exact (Option.some.inj h2).symm

/-! ## Claim C3 -/

/-- C3: `preprocess_key_name_pairs` terminates on every input: the unbounded
sweep loop, modelled with explicit fuel, returns within `keys.len() + 1`
sweeps (any fuel exceeding the table size is never exhausted), and its value
is the function's result. Each executed sweep either strictly decreases the
deferred-entry counter (continuing until zero entries remain unresolved,
returning `Ok`) or the function returns the `MutualReference` error. -/
theorem c3_resolver_terminates (ck : CommonKeyable) (tbl : KeyTable) (fuel : Nat)
    (h : tbl.length < fuel) :
    preprocessLoopFuel ck fuel tbl tbl.length = some (preprocessKeyNamePairs ck tbl) :=
  preprocessLoopFuel_eq ck fuel tbl.length tbl h

/-- Witness for C3 at a concrete two-entry table (one resolved entry, one
entry referencing it). -/
theorem c3_resolver_terminates_witness :
    preprocessLoopFuel ⟨[]⟩ 3
        [(['a'], .string (.Preprocessed ['x'])),
         (['b'], .string (.NotPreprocessed ['@', '{', 'a', '}']))]
        2 =
      some (preprocessKeyNamePairs ⟨[]⟩
        [(['a'], .string (.Preprocessed ['x'])),
         (['b'], .string (.NotPreprocessed ['@', '{', 'a', '}']))]) := by
  exact c3_resolver_terminates ⟨[]⟩
    [(['a'], .string (.Preprocessed ['x'])),
     (['b'], .string (.NotPreprocessed ['@', '{', 'a', '}']))]
    3 (by decide)

/-! ## Claim C8 -/

/-- The reference lexer never produces a `MutualReferences` error at a step. -/
lemma pstep_not_mutual {st : PState} {c : Char} {e : PErr}
    (h : pstep st c = .error e) : e.isMutual = false := by
  cases st <;> cases hch : PreprocessorSigil.fromChar c <;>
    simp only [pstep, hch] at h <;>
    (try split at h) <;>
    first
    | exact Except.noConfusion h
    | (injection h with h; subst h; rfl)

/-- The reference lexer never produces a `MutualReferences` error at end of
input. -/
lemma pfinal_not_mutual {st : PState} {e : PErr} (h : pfinal st = .error e) :
    e.isMutual = false := by
  cases st <;> simp only [pfinal] at h <;>
    first
    | exact Except.noConfusion h
    | (injection h with h; subst h; rfl)

/-- The reference lexer never fails with `MutualReferences`. -/
lemma ptokenizeGo_not_mutual :
    ∀ cs st e, ptokenizeGo st cs = .error e → e.isMutual = false := by
  intro cs
  induction cs with
  | nil => intro st e h; exact pfinal_not_mutual h
  | cons c cs ih =>
    intro st e h
    simp only [ptokenizeGo] at h
    cases hstep : pstep st c with
    | error e' =>
      simp only [hstep] at h
      injection h with h
      subst h
      exact pstep_not_mutual hstep
    | ok p =>
      obtain ⟨em, st'⟩ := p
      simp only [hstep] at h
      cases hrest : ptokenizeGo st' cs with
      | error e' =>
        simp only [hrest] at h
        injection h with h
        subst h
        exact ih st' e' hrest
      | ok rest => simp only [hrest] at h; exact Except.noConfusion h

/-- Token assembly only ever fails with `NonExistantReference`. -/
lemma assemblyGo_not_mutual {keys : KeyTable} :
    ∀ tokens acc e, assemblyGo keys tokens acc = .error e → e.isMutual = false := by
  intro tokens
  induction tokens with
  | nil => intro acc e h; exact Except.noConfusion h
  | cons t rest ih =>
    intro acc e h
    cases t with
    | Raw s => exact ih _ e h
    | Key key =>
      simp only [assemblyGo] at h
      cases hl : tblLookup keys key with
      | none =>
        rw [hl] at h
        injection h with h
        subst h
        rfl
      | some cell =>
        rw [hl] at h
        cases cell with
        | name v => cases v with
          | NotPreprocessed _ => exact Except.noConfusion h
          | Preprocessed s => exact ih _ e h
        | string v => cases v with
          | NotPreprocessed _ => exact Except.noConfusion h
          | Preprocessed s => exact ih _ e h

/-- Tokenizing a cell never fails with `MutualReferences`. -/
lemma entryTokens_not_mutual {ck : CommonKeyable} {e : AnyPreprocessable} {err : PErr}
    (h : entryTokens ck e = .error err) : err.isMutual = false := by
  cases e with
  | name v => cases v with
    | NotPreprocessed n => exact ptokenizeGo_not_mutual _ _ _ h
    | Preprocessed s => exact Except.noConfusion h
  | string v => cases v with
    | NotPreprocessed s => exact ptokenizeGo_not_mutual _ _ _ h
    | Preprocessed s => exact Except.noConfusion h

/-- A sweep never fails with `MutualReferences`. -/
lemma sweepGo_not_mutual {ck : CommonKeyable} :
    ∀ order tbl d tbl' e, sweepGo ck tbl order d = (tbl', .error e) →
      e.isMutual = false := by
  intro order
  induction order with
  | nil =>
    intro tbl d tbl' e h
    simp only [sweepGo, Prod.mk.injEq] at h
    exact absurd h.2 (by simp)
  | cons key rest ih =>
    intro tbl d tbl' e h
    simp only [sweepGo] at h
    cases hl : tblLookup tbl key with
    | none => simp only [hl] at h; exact ih _ _ _ _ h
    | some cell =>
      simp only [hl] at h
      cases cell with
      | name v =>
        cases v with
        | Preprocessed s => exact ih _ _ _ _ h
        | NotPreprocessed n =>
          cases htk : nameIntoPreprocessorTokens n ck with
          | error err =>
            simp only [htk] at h
            rw [Prod.mk.injEq] at h
            obtain ⟨-, h2⟩ := h
            injection h2 with h2
            subst h2
            exact ptokenizeGo_not_mutual _ _ _ htk
          | ok tokens =>
            simp only [htk] at h
            cases ha : preprocessorTokenAssemblyAttempt tokens tbl with
            | error err =>
              simp only [ha] at h
              rw [Prod.mk.injEq] at h
              obtain ⟨-, h2⟩ := h
              injection h2 with h2
              subst h2
              exact assemblyGo_not_mutual _ _ _ ha
            | ok r =>
              simp only [ha] at h
              cases r with
              | none => exact ih _ _ _ _ h
              | some s => exact ih _ _ _ _ h
      | string v =>
        cases v with
        | Preprocessed s => exact ih _ _ _ _ h
        | NotPreprocessed src =>
          cases htk : strIntoPreprocessorTokens src ck with
          | error err =>
            simp only [htk] at h
            rw [Prod.mk.injEq] at h
            obtain ⟨-, h2⟩ := h
            injection h2 with h2
            subst h2
            exact ptokenizeGo_not_mutual _ _ _ htk
          | ok tokens =>
            simp only [htk] at h
            cases ha : preprocessorTokenAssemblyAttempt tokens tbl with
            | error err =>
              simp only [ha] at h
              rw [Prod.mk.injEq] at h
              obtain ⟨-, h2⟩ := h
              injection h2 with h2
              subst h2
              exact assemblyGo_not_mutual _ _ _ ha
            | ok r =>
              simp only [ha] at h
              cases r with
              | none => exact ih _ _ _ _ h
              | some s => exact ih _ _ _ _ h

/-- C8 counterexample: for a table whose single entry is a `String`-valued
self-reference, the resolver fails with a `MutualReferences` error whose
key/name list is empty, although the returned table still holds the entry
unresolved: the error does not name `String`-valued unresolved entries. -/
theorem c8_payload_counterexample :
    preprocessKeyNamePairs ⟨[]⟩
        [(['a'], .string (.NotPreprocessed ['@', '{', 'a', '}']))] =
      ([(['a'], .string (.NotPreprocessed ['@', '{', 'a', '}']))],
        .error (.MutualReferences [])) ∧
      unresAt [(['a'], .string (.NotPreprocessed ['@', '{', 'a', '}']))] ['a'] = true := by
  refine ⟨preprocessLoop_eval ?_, by decide⟩
  decide

/-- C8 (amended): whenever `preprocess_key_name_pairs` fails with
`MutualReferences`, the error names exactly the `Name`-valued entries of the
key table that are still unresolved at that point; `String`-valued unresolved
entries are omitted from it. -/
theorem c8_mutual_payload (ck : CommonKeyable) (tbl out : KeyTable)
    (lst : List (Str × Name))
    (h : preprocessKeyNamePairs ck tbl = (out, .error (.MutualReferences lst))) :
    lst = unresolvedKeyNames out := by
  unfold preprocessKeyNamePairs at h
  generalize hleft : tbl.length = left at h
  clear hleft
  induction left using Nat.strong_induction_on generalizing tbl with
  | _ left ih =>
    rw [preprocessLoop_step] at h
    by_cases h0 : left = 0
    · rw [h0] at h
      simp only [if_true, Prod.mk.injEq] at h
      exact absurd h.2 (by simp)
    · simp only [h0, if_false] at h
      cases hs : sweepGo ck tbl (tbl.map Prod.fst) 0 with
      | mk tbl' res =>
        simp only [hs] at h
        cases res with
        | error e =>
          rw [Prod.mk.injEq] at h
          obtain ⟨rfl, h2⟩ := h
          injection h2 with h2
          subst h2
          have := sweepGo_not_mutual _ _ _ _ _ hs
          simp [PErr.isMutual] at this
        | ok nowLeft =>
          by_cases hle : left ≤ nowLeft
          · simp only [hle, if_true, Prod.mk.injEq] at h
            obtain ⟨rfl, h2⟩ := h
            injection h2 with h2
            injection h2 with h2
            exact h2.symm
          · simp only [hle, if_false] at h
            exact ih nowLeft (by omega) tbl' h

/-- Witness for C8 (amended) at a concrete `Name`-valued self-reference. -/
theorem c8_mutual_payload_witness :
    ([(['a'], Name.Raw ['@', '{', 'a', '}'])] : List (Str × Name)) =
      unresolvedKeyNames
        [(['a'], .name (.NotPreprocessed (.Raw ['@', '{', 'a', '}'])))] := by
  exact c8_mutual_payload ⟨[]⟩
    [(['a'], .name (.NotPreprocessed (.Raw ['@', '{', 'a', '}'])))]
    [(['a'], .name (.NotPreprocessed (.Raw ['@', '{', 'a', '}'])))]
    [(['a'], Name.Raw ['@', '{', 'a', '}'])]
    (preprocessLoop_eval (by decide))

/-! ## Key table infrastructure -/

/-- A successful lookup is a member of the table. -/
lemma tblLookup_mem {tbl : KeyTable} {k : Str} {e : AnyPreprocessable}
    (h : tblLookup tbl k = some e) : (k, e) ∈ tbl := by
  induction tbl with
  | nil => exact Option.noConfusion h
  | cons p rest ih =>
    obtain ⟨k', e'⟩ := p
    simp only [tblLookup] at h
    by_cases hk : k' = k
    · rw [if_pos hk] at h
      injection h with h
      subst hk h
      exact List.mem_cons.mpr (Or.inl rfl)
    · rw [if_neg hk] at h
      exact List.mem_cons.mpr (Or.inr (ih h))

/-- A successful lookup means the key is among the table's keys. -/
lemma mem_keys_of_lookup {tbl : KeyTable} {k : Str} {e : AnyPreprocessable}
    (h : tblLookup tbl k = some e) : k ∈ tbl.map Prod.fst := by
  exact List.mem_map.mpr ⟨(k, e), tblLookup_mem h, rfl⟩

/-- Lookup succeeds exactly on the table's keys. -/
lemma lookup_isSome_iff {tbl : KeyTable} {k : Str} :
    (tblLookup tbl k).isSome = true ↔ k ∈ tbl.map Prod.fst := by
  induction tbl with
  | nil => simp [tblLookup]
  | cons p rest ih =>
    obtain ⟨k', e'⟩ := p
    simp only [List.map_cons, List.mem_cons, tblLookup]
    by_cases hk : k' = k
    · subst hk
      simp
    · have hkk : ¬(k = k') := fun hc => hk hc.symm
      rw [if_neg hk, ih]
      simp [hkk]

/-- Updating preserves the key list. -/
lemma tblUpdate_map_fst (tbl : KeyTable) (key : Str) (v : AnyPreprocessable) :
    (tblUpdate tbl key v).map Prod.fst = tbl.map Prod.fst := by
  induction tbl with
  | nil => rfl
  | cons p rest ih =>
    obtain ⟨k', e'⟩ := p
    by_cases hk : k' = key <;> simp [tblUpdate, hk, ih]

/-- Updating one key leaves lookups at other keys unchanged. -/
lemma tblLookup_update_ne {tbl : KeyTable} {k key : Str} (v : AnyPreprocessable)
    (hne : k ≠ key) : tblLookup (tblUpdate tbl key v) k = tblLookup tbl k := by
  induction tbl with
  | nil => rfl
  | cons p rest ih =>
    obtain ⟨k', e'⟩ := p
    by_cases hk : k' = key
    · subst hk
      have hkk : ¬(k' = k) := fun hc => hne hc.symm
      simp [tblUpdate, tblLookup, hkk, ih]
    · simp only [tblUpdate, if_neg hk, tblLookup]
      by_cases hk2 : k' = k <;> simp [hk2, ih]

/-- Updating a present key makes its lookup the new value. -/
lemma tblLookup_update_self {tbl : KeyTable} {key : Str} {e : AnyPreprocessable}
    (v : AnyPreprocessable) (h : tblLookup tbl key = some e) :
    tblLookup (tblUpdate tbl key v) key = some v := by
  induction tbl with
  | nil => exact Option.noConfusion h
  | cons p rest ih =>
    obtain ⟨k', e'⟩ := p
    simp only [tblLookup] at h
    by_cases hk : k' = key
    · simp [tblUpdate, tblLookup, hk]
    · rw [if_neg hk] at h
      simp [tblUpdate, tblLookup, hk, ih h]

/-- When an accepted token list is `ok`, its dependency list is its key
tokens. -/
lemma entryDeps_of_tokens {ck : CommonKeyable} {e : AnyPreprocessable}
    {ts : List PreprocessorToken} (h : entryTokens ck e = .ok ts) :
    entryDeps ck e = tokenKeys ts := by
  simp [entryDeps, h]

/-- Key tokens of a cons with a raw head. -/
lemma tokenKeys_cons_raw (s : Str) (ts : List PreprocessorToken) :
    tokenKeys (.Raw s :: ts) = tokenKeys ts := rfl

/-- Key tokens of a cons with a key head. -/
lemma tokenKeys_cons_key (k : Str) (ts : List PreprocessorToken) :
    tokenKeys (.Key k :: ts) = k :: tokenKeys ts := rfl

/-- Assembly never errors when every referenced key is present. -/
lemma assemblyGo_no_error {keys : KeyTable} :
    ∀ tokens acc, (∀ d ∈ tokenKeys tokens, (tblLookup keys d).isSome = true) →
      ∃ r, assemblyGo keys tokens acc = .ok r := by
  intro tokens
  induction tokens with
  | nil => intro acc _; exact ⟨some acc, rfl⟩
  | cons t rest ih =>
    intro acc hp
    cases t with
    | Raw s =>
      exact ih (acc ++ s) (fun d hd => hp d (by rwa [tokenKeys_cons_raw]))
    | Key key =>
      have hks : (tblLookup keys key).isSome = true :=
        hp key (by rw [tokenKeys_cons_key]; exact List.mem_cons.mpr (Or.inl rfl))
      cases hl : tblLookup keys key with
      | none => rw [hl] at hks; exact Bool.noConfusion hks
      | some cell =>
        have hrest : ∀ d ∈ tokenKeys rest, (tblLookup keys d).isSome = true :=
          fun d hd => hp d (by rw [tokenKeys_cons_key]; exact List.mem_cons.mpr (Or.inr hd))
        cases cell with
        | name v =>
          cases v with
          | NotPreprocessed n => exact ⟨none, by simp [assemblyGo, hl]⟩
          | Preprocessed s =>
            obtain ⟨r, hr⟩ := ih (acc ++ s) hrest
            exact ⟨r, by simp [assemblyGo, hl, hr]⟩
        | string v =>
          cases v with
          | NotPreprocessed s => exact ⟨none, by simp [assemblyGo, hl]⟩
          | Preprocessed s =>
            obtain ⟨r, hr⟩ := ih (acc ++ s) hrest
            exact ⟨r, by simp [assemblyGo, hl, hr]⟩

/-- Assembly abandons the attempt (returns `Ok(None)`) when every referenced
key is present and at least one referenced key is still unresolved. -/
lemma assemblyGo_defers {keys : KeyTable} :
    ∀ tokens acc, (∀ d ∈ tokenKeys tokens, (tblLookup keys d).isSome = true) →
      (∃ d ∈ tokenKeys tokens, unresAt keys d = true) →
      assemblyGo keys tokens acc = .ok none := by
  intro tokens
  induction tokens with
  | nil => intro acc _ hu; simp [tokenKeys] at hu
  | cons t rest ih =>
    intro acc hp hu
    cases t with
    | Raw s =>
      refine ih (acc ++ s) (fun d hd => hp d (by rwa [tokenKeys_cons_raw])) ?_
      obtain ⟨d, hd, hud⟩ := hu
      exact ⟨d, by rwa [tokenKeys_cons_raw] at hd, hud⟩
    | Key key =>
      have hks : (tblLookup keys key).isSome = true :=
        hp key (by rw [tokenKeys_cons_key]; exact List.mem_cons.mpr (Or.inl rfl))
      cases hl : tblLookup keys key with
      | none => rw [hl] at hks; exact Bool.noConfusion hks
      | some cell =>
        by_cases hcell : isUnresolved cell = true
        · cases cell with
          | name v =>
            cases v with
            | NotPreprocessed n => simp [assemblyGo, hl]
            | Preprocessed s => simp [isUnresolved] at hcell
          | string v =>
            cases v with
            | NotPreprocessed s => simp [assemblyGo, hl]
            | Preprocessed s => simp [isUnresolved] at hcell
        · have hrest : ∀ d ∈ tokenKeys rest, (tblLookup keys d).isSome = true :=
            fun d hd => hp d (by rw [tokenKeys_cons_key]; exact List.mem_cons.mpr (Or.inr hd))
          have hurest : ∃ d ∈ tokenKeys rest, unresAt keys d = true := by
            obtain ⟨d, hd, hud⟩ := hu
            rw [tokenKeys_cons_key] at hd
            rcases List.mem_cons.mp hd with rfl | hd'
            · exfalso
              rw [unresAt, hl] at hud
              exact hcell hud
            · exact ⟨d, hd', hud⟩
          cases cell with
          | name v =>
            cases v with
            | NotPreprocessed n => simp [isUnresolved] at hcell
            | Preprocessed s => simpa [assemblyGo, hl] using ih (acc ++ s) hrest hurest
          | string v =>
            cases v with
            | NotPreprocessed s => simp [isUnresolved] at hcell
            | Preprocessed s => simpa [assemblyGo, hl] using ih (acc ++ s) hrest hurest

/-- Equal lookups give equal unresolvedness. -/
lemma unresAt_congr {a b : KeyTable} {k : Str}
    (h : tblLookup a k = tblLookup b k) : unresAt a k = unresAt b k := by
  simp [unresAt, h]

/-- The unresolvedness at a present key is its cell's. -/
lemma unresAt_of_lookup {tbl : KeyTable} {k : Str} {e : AnyPreprocessable}
    (h : tblLookup tbl k = some e) : unresAt tbl k = isUnresolved e := by
  simp [unresAt, h]

/-- An unresolved key is present. -/
lemma isSome_of_unresAt {tbl : KeyTable} {k : Str} (h : unresAt tbl k = true) :
    (tblLookup tbl k).isSome = true := by
  rw [unresAt] at h
  cases hl : tblLookup tbl k with
  | none => rw [hl] at h; exact Bool.noConfusion h
  | some e => rfl

/-! ## Claim C7 -/

/-- The sweep preserves the key set, keeps unresolved entries at their
original cells, never touches the entries of a dependency-closed cycle set
`S`, and defers (at least) every entry of `S` it visits. -/
lemma c7_sweep (ck : CommonKeyable) (tbl0 : KeyTable) (S : List Str)
    (hSunres : ∀ k ∈ S, unresAt tbl0 k = true)
    (hSdep : ∀ k ∈ S, ∃ e, tblLookup tbl0 k = some e ∧ ∃ d ∈ S, d ∈ entryDeps ck e)
    (htok : ∀ p ∈ tbl0, ∃ ts, entryTokens ck p.2 = .ok ts)
    (hclosed : ∀ p ∈ tbl0, ∀ d ∈ entryDeps ck p.2, d ∈ tbl0.map Prod.fst) :
    ∀ order cur d0,
      cur.map Prod.fst = tbl0.map Prod.fst →
      (∀ k e, tblLookup cur k = some e → isUnresolved e = true →
        tblLookup tbl0 k = some e) →
      (∀ k ∈ S, tblLookup cur k = tblLookup tbl0 k) →
      ∃ cur' dc, sweepGo ck cur order d0 = (cur', .ok dc) ∧
        cur'.map Prod.fst = tbl0.map Prod.fst ∧
        (∀ k e, tblLookup cur' k = some e → isUnresolved e = true →
          tblLookup tbl0 k = some e) ∧
        (∀ k ∈ S, tblLookup cur' k = tblLookup tbl0 k) ∧
        d0 ≤ dc ∧
        (∀ k ∈ S, k ∈ order → d0 + 1 ≤ dc) := by
  intro order
  induction order with
  | nil =>
    intro cur d0 hI1 hI2 hI3
    exact ⟨cur, d0, rfl, hI1, hI2, hI3, le_refl _,
      fun k hk hmem => absurd hmem (List.not_mem_nil _)⟩
  | cons key rest ih =>
    intro cur d0 hI1 hI2 hI3
    have hkeyS_unres : key ∈ S → unresAt cur key = true := by
      intro hkS
      rw [unresAt_congr (hI3 key hkS)]
      exact hSunres key hkS
    cases hl : tblLookup cur key with
    | none =>
      obtain ⟨cur', dc, hrun, p1, p2, p3, p4, p5⟩ := ih cur d0 hI1 hI2 hI3
      refine ⟨cur', dc, ?_, p1, p2, p3, p4, ?_⟩
      · simp only [sweepGo, hl]; exact hrun
      · intro k hk hmem
        rcases List.mem_cons.mp hmem with rfl | hmem'
        · exfalso
          have := isSome_of_unresAt (hkeyS_unres hk)
          rw [hl] at this
          exact Bool.noConfusion this
        · exact p5 k hk hmem'
    | some cell =>
      cases cell with
      | name v =>
        cases v with
        | Preprocessed s =>
          obtain ⟨cur', dc, hrun, p1, p2, p3, p4, p5⟩ := ih cur d0 hI1 hI2 hI3
          refine ⟨cur', dc, ?_, p1, p2, p3, p4, ?_⟩
          · simp only [sweepGo, hl]; exact hrun
          · intro k hk hmem
            rcases List.mem_cons.mp hmem with rfl | hmem'
            · exfalso
              have := hkeyS_unres hk
              rw [unresAt_of_lookup hl] at this
              simp [isUnresolved] at this
            · exact p5 k hk hmem'
        | NotPreprocessed n =>
          have horig : tblLookup tbl0 key = some (.name (.NotPreprocessed n)) :=
            hI2 key _ hl rfl
          have hmem0 := tblLookup_mem horig
          obtain ⟨ts, hts⟩ := htok _ hmem0
          have htokname : nameIntoPreprocessorTokens n ck = .ok ts := hts
          have hdeps : entryDeps ck (.name (.NotPreprocessed n)) = tokenKeys ts :=
            entryDeps_of_tokens hts
          have hpresent : ∀ d ∈ tokenKeys ts, (tblLookup cur d).isSome = true := by
            intro d hd
            rw [lookup_isSome_iff, hI1]
            exact hclosed _ hmem0 d (by rw [hdeps]; exact hd)
          cases ha : preprocessorTokenAssemblyAttempt ts cur with
          | error err =>
            exfalso
            obtain ⟨r, hr⟩ := assemblyGo_no_error ts [] hpresent
            rw [preprocessorTokenAssemblyAttempt] at ha
            rw [hr] at ha
            exact Except.noConfusion ha
          | ok r =>
            cases r with
            | none =>
              obtain ⟨cur', dc, hrun, p1, p2, p3, p4, p5⟩ := ih cur (d0 + 1) hI1 hI2 hI3
              refine ⟨cur', dc, ?_, p1, p2, p3, by omega, ?_⟩
              · simp only [sweepGo, hl, htokname, ha]; exact hrun
              · intro k hk hmem
                rcases List.mem_cons.mp hmem with rfl | hmem'
                · exact p4
                · have := p5 k hk hmem'
                  omega
            | some s =>
              have hkeyS : key ∉ S := by
                intro hkS
                obtain ⟨e, he, d, hdS, hdDep⟩ := hSdep key hkS
                rw [horig] at he
                injection he with he
                subst he
                have hud : unresAt cur d = true := by
                  rw [unresAt_congr (hI3 d hdS)]
                  exact hSunres d hdS
                have hdefer := assemblyGo_defers ts [] hpresent
                  ⟨d, by rw [← hdeps]; exact hdDep, hud⟩
                rw [preprocessorTokenAssemblyAttempt, hdefer] at ha
                injection ha with ha
                exact Option.noConfusion ha
              have hI1' : (tblUpdate cur key (.name (.Preprocessed s))).map Prod.fst =
                  tbl0.map Prod.fst := by
                rw [tblUpdate_map_fst]; exact hI1
              have hI2' : ∀ k e,
                  tblLookup (tblUpdate cur key (.name (.Preprocessed s))) k = some e →
                  isUnresolved e = true → tblLookup tbl0 k = some e := by
                intro k e hle hue
                by_cases hkk : k = key
                · subst hkk
                  rw [tblLookup_update_self _ hl] at hle
                  injection hle with hle
                  subst hle
                  simp [isUnresolved] at hue
                · rw [tblLookup_update_ne _ hkk] at hle
                  exact hI2 k e hle hue
              have hI3' : ∀ k ∈ S,
                  tblLookup (tblUpdate cur key (.name (.Preprocessed s))) k =
                    tblLookup tbl0 k := by
                intro k hk
                have hkk : k ≠ key := fun hc => hkeyS (hc ▸ hk)
                rw [tblLookup_update_ne _ hkk]
                exact hI3 k hk
              obtain ⟨cur', dc, hrun, p1, p2, p3, p4, p5⟩ := ih _ d0 hI1' hI2' hI3'
              refine ⟨cur', dc, ?_, p1, p2, p3, p4, ?_⟩
              · simp only [sweepGo, hl, htokname, ha]; exact hrun
              · intro k hk hmem
                rcases List.mem_cons.mp hmem with rfl | hmem'
                · exact absurd hk hkeyS
                · exact p5 k hk hmem'
      | string v =>
        cases v with
        | Preprocessed s =>
          obtain ⟨cur', dc, hrun, p1, p2, p3, p4, p5⟩ := ih cur d0 hI1 hI2 hI3
          refine ⟨cur', dc, ?_, p1, p2, p3, p4, ?_⟩
          · simp only [sweepGo, hl]; exact hrun
          · intro k hk hmem
            rcases List.mem_cons.mp hmem with rfl | hmem'
            · exfalso
              have := hkeyS_unres hk
              rw [unresAt_of_lookup hl] at this
              simp [isUnresolved] at this
            · exact p5 k hk hmem'
        | NotPreprocessed src =>
          have horig : tblLookup tbl0 key = some (.string (.NotPreprocessed src)) :=
            hI2 key _ hl rfl
          have hmem0 := tblLookup_mem horig
          obtain ⟨ts, hts⟩ := htok _ hmem0
          have htokstr : strIntoPreprocessorTokens src ck = .ok ts := hts
          have hdeps : entryDeps ck (.string (.NotPreprocessed src)) = tokenKeys ts :=
            entryDeps_of_tokens hts
          have hpresent : ∀ d ∈ tokenKeys ts, (tblLookup cur d).isSome = true := by
            intro d hd
            rw [lookup_isSome_iff, hI1]
            exact hclosed _ hmem0 d (by rw [hdeps]; exact hd)
          cases ha : preprocessorTokenAssemblyAttempt ts cur with
          | error err =>
            exfalso
            obtain ⟨r, hr⟩ := assemblyGo_no_error ts [] hpresent
            rw [preprocessorTokenAssemblyAttempt] at ha
            rw [hr] at ha
            exact Except.noConfusion ha
          | ok r =>
            cases r with
            | none =>
              obtain ⟨cur', dc, hrun, p1, p2, p3, p4, p5⟩ := ih cur (d0 + 1) hI1 hI2 hI3
              refine ⟨cur', dc, ?_, p1, p2, p3, by omega, ?_⟩
              · simp only [sweepGo, hl, htokstr, ha]; exact hrun
              · intro k hk hmem
                rcases List.mem_cons.mp hmem with rfl | hmem'
                · exact p4
                · have := p5 k hk hmem'
                  omega
            | some s =>
              have hkeyS : key ∉ S := by
                intro hkS
                obtain ⟨e, he, d, hdS, hdDep⟩ := hSdep key hkS
                rw [horig] at he
                injection he with he
                subst he
                have hud : unresAt cur d = true := by
                  rw [unresAt_congr (hI3 d hdS)]
                  exact hSunres d hdS
                have hdefer := assemblyGo_defers ts [] hpresent
                  ⟨d, by rw [← hdeps]; exact hdDep, hud⟩
                rw [preprocessorTokenAssemblyAttempt, hdefer] at ha
                injection ha with ha
                exact Option.noConfusion ha
              have hI1' : (tblUpdate cur key (.string (.Preprocessed s))).map Prod.fst =
                  tbl0.map Prod.fst := by
                rw [tblUpdate_map_fst]; exact hI1
              have hI2' : ∀ k e,
                  tblLookup (tblUpdate cur key (.string (.Preprocessed s))) k = some e →
                  isUnresolved e = true → tblLookup tbl0 k = some e := by
                intro k e hle hue
                by_cases hkk : k = key
                · subst hkk
                  rw [tblLookup_update_self _ hl] at hle
                  injection hle with hle
                  subst hle
                  simp [isUnresolved] at hue
                · rw [tblLookup_update_ne _ hkk] at hle
                  exact hI2 k e hle hue
              have hI3' : ∀ k ∈ S,
                  tblLookup (tblUpdate cur key (.string (.Preprocessed s))) k =
                    tblLookup tbl0 k := by
                intro k hk
                have hkk : k ≠ key := fun hc => hkeyS (hc ▸ hk)
                rw [tblLookup_update_ne _ hkk]
                exact hI3 k hk
              obtain ⟨cur', dc, hrun, p1, p2, p3, p4, p5⟩ := ih _ d0 hI1' hI2' hI3'
              refine ⟨cur', dc, ?_, p1, p2, p3, p4, ?_⟩
              · simp only [sweepGo, hl, htokstr, ha]; exact hrun
              · intro k hk hmem
                rcases List.mem_cons.mp hmem with rfl | hmem'
                · exact absurd hk hkeyS
                · exact p5 k hk hmem'

/-- With a nonempty dependency-closed cycle set, the sweep loop always ends
in a `MutualReferences` error and leaves the cycle entries unchanged. -/
lemma c7_loop (ck : CommonKeyable) (tbl0 : KeyTable) (S : List Str)
    (hS0 : S ≠ [])
    (hSunres : ∀ k ∈ S, unresAt tbl0 k = true)
    (hSdep : ∀ k ∈ S, ∃ e, tblLookup tbl0 k = some e ∧ ∃ d ∈ S, d ∈ entryDeps ck e)
    (htok : ∀ p ∈ tbl0, ∃ ts, entryTokens ck p.2 = .ok ts)
    (hclosed : ∀ p ∈ tbl0, ∀ d ∈ entryDeps ck p.2, d ∈ tbl0.map Prod.fst) :
    ∀ left cur,
      cur.map Prod.fst = tbl0.map Prod.fst →
      (∀ k e, tblLookup cur k = some e → isUnresolved e = true →
        tblLookup tbl0 k = some e) →
      (∀ k ∈ S, tblLookup cur k = tblLookup tbl0 k) →
      1 ≤ left →
      ∃ cur' lst, preprocessLoop ck cur left = (cur', .error (.MutualReferences lst)) ∧
        ∀ k ∈ S, tblLookup cur' k = tblLookup tbl0 k := by
  intro left
  induction left using Nat.strong_induction_on with
  | _ left ihl =>
    intro cur hI1 hI2 hI3 hpos
    obtain ⟨k0, hk0⟩ : ∃ k, k ∈ S := by
      cases S with
      | nil => exact absurd rfl hS0
      | cons a t => exact ⟨a, List.mem_cons.mpr (Or.inl rfl)⟩
    obtain ⟨cur', dc, hrun, p1, p2, p3, p4, p5⟩ :=
      c7_sweep ck tbl0 S hSunres hSdep htok hclosed (cur.map Prod.fst) cur 0 hI1 hI2 hI3
    have hk0mem : k0 ∈ cur.map Prod.fst := by
      rw [← lookup_isSome_iff, hI3 k0 hk0]
      exact isSome_of_unresAt (hSunres k0 hk0)
    have hdc1 : 1 ≤ dc := p5 k0 hk0 hk0mem
    rw [preprocessLoop_step]
    have hne : ¬(left = 0) := by omega
    simp only [hne, if_false, hrun]
    by_cases hle : left ≤ dc
    · simp only [hle, if_true]
      exact ⟨cur', unresolvedKeyNames cur', rfl, p3⟩
    · simp only [hle, if_false]
      exact ihl dc (by omega) cur' p1 p2 p3 (by omega)

/-- C7: for a key table containing a key whose source references itself
(`k₁ = k₂`), or two keys whose sources reference each other, with every
unresolved source tokenizable and every referenced key present,
`preprocess_key_name_pairs` returns a `MutualReference` error and every entry
involved in the cycle is still in its original unresolved state when the
function returns. -/
theorem c7_cycle_mutual_reference (ck : CommonKeyable) (tbl : KeyTable)
    (htok : ∀ p ∈ tbl, ∃ ts, entryTokens ck p.2 = .ok ts)
    (hclosed : ∀ p ∈ tbl, ∀ d ∈ entryDeps ck p.2, d ∈ tbl.map Prod.fst)
    (k₁ k₂ : Str) (e₁ e₂ : AnyPreprocessable)
    (h₁ : tblLookup tbl k₁ = some e₁) (hu₁ : isUnresolved e₁ = true)
    (h₂ : tblLookup tbl k₂ = some e₂) (hu₂ : isUnresolved e₂ = true)
    (hd₁ : k₂ ∈ entryDeps ck e₁) (hd₂ : k₁ ∈ entryDeps ck e₂) :
    ∃ out lst, preprocessKeyNamePairs ck tbl = (out, .error (.MutualReferences lst)) ∧
      tblLookup out k₁ = some e₁ ∧ tblLookup out k₂ = some e₂ := by
  have hSunres : ∀ k ∈ [k₁, k₂], unresAt tbl k = true := by
    intro k hk
    rcases List.mem_cons.mp hk with rfl | hk'
    · rw [unresAt_of_lookup h₁]; exact hu₁
    · rcases List.mem_cons.mp hk' with rfl | hk''
      · rw [unresAt_of_lookup h₂]; exact hu₂
      · exact absurd hk'' (List.not_mem_nil _)
  have hSdep : ∀ k ∈ [k₁, k₂], ∃ e, tblLookup tbl k = some e ∧
      ∃ d ∈ [k₁, k₂], d ∈ entryDeps ck e := by
    intro k hk
    rcases List.mem_cons.mp hk with rfl | hk'
    · exact ⟨e₁, h₁, k₂, List.mem_cons.mpr (Or.inr (List.mem_cons.mpr (Or.inl rfl))), hd₁⟩
    · rcases List.mem_cons.mp hk' with rfl | hk''
      · exact ⟨e₂, h₂, k₁, List.mem_cons.mpr (Or.inl rfl), hd₂⟩
      · exact absurd hk'' (List.not_mem_nil _)
  have hlen : 1 ≤ tbl.length := by
    have := List.ne_nil_of_mem (tblLookup_mem h₁)
    have := List.length_pos.mpr this
    omega
  obtain ⟨out, lst, hrun, hS⟩ :=
    c7_loop ck tbl [k₁, k₂] (by simp) hSunres hSdep htok hclosed tbl.length tbl rfl
      (fun k e hle _ => hle) (fun k _ => rfl) hlen
  refine ⟨out, lst, hrun, ?_, ?_⟩
  · rw [hS k₁ (List.mem_cons.mpr (Or.inl rfl))]; exact h₁
  · rw [hS k₂ (List.mem_cons.mpr (Or.inr (List.mem_cons.mpr (Or.inl rfl))))]; exact h₂

/-- Witness for C7 at a concrete two-key mutual reference. -/
theorem c7_cycle_mutual_reference_witness :
    ∃ out lst,
      preprocessKeyNamePairs ⟨[]⟩
          [(['a'], .string (.NotPreprocessed ['@', '{', 'b', '}'])),
           (['b'], .string (.NotPreprocessed ['@', '{', 'a', '}']))] =
        (out, .error (.MutualReferences lst)) ∧
      tblLookup out ['a'] = some (.string (.NotPreprocessed ['@', '{', 'b', '}'])) ∧
      tblLookup out ['b'] = some (.string (.NotPreprocessed ['@', '{', 'a', '}'])) := by
  refine c7_cycle_mutual_reference ⟨[]⟩
    [(['a'], .string (.NotPreprocessed ['@', '{', 'b', '}'])),
     (['b'], .string (.NotPreprocessed ['@', '{', 'a', '}']))]
    ?_ ?_ ['a'] ['b'] _ _ rfl (by decide) rfl (by decide) (by decide) (by decide)
  · intro p hp
    rcases List.mem_cons.mp hp with rfl | hp'
    · exact ⟨_, rfl⟩
    · rcases List.mem_cons.mp hp' with rfl | hp''
      · exact ⟨_, rfl⟩
      · exact absurd hp'' (List.not_mem_nil _)
  · intro p hp
    rcases List.mem_cons.mp hp with rfl | hp'
    · decide
    · rcases List.mem_cons.mp hp' with rfl | hp''
      · decide
      · exact absurd hp'' (List.not_mem_nil _)

/-! ## Claim C4: denotation lemmas -/

/-- The resolved value of a freshly resolved cell. -/
lemma cellVal_resolveCell (e : AnyPreprocessable) (v : Str) :
    cellVal (resolveCell e v) = some v := by
  cases e <;> rfl

/-- A freshly resolved cell is resolved. -/
lemma isUnresolved_resolveCell (e : AnyPreprocessable) (v : Str) :
    isUnresolved (resolveCell e v) = false := by
  cases e <;> rfl

/-- A resolved cell stores a value. -/
lemma cellVal_of_resolved {e : AnyPreprocessable} (h : isUnresolved e = false) :
    ∃ s, cellVal e = some s := by
  cases e with
  | name v => cases v with
    | NotPreprocessed n => simp [isUnresolved] at h
    | Preprocessed s => exact ⟨s, rfl⟩
  | string v => cases v with
    | NotPreprocessed src => simp [isUnresolved] at h
    | Preprocessed s => exact ⟨s, rfl⟩

/-- Unfolding of `substDen` on a cons. -/
lemma substDen_cons (ck : CommonKeyable) (f : Nat) (tbl : KeyTable)
    (t : PreprocessorToken) (ts : List PreprocessorToken) :
    substDen ck f tbl (t :: ts) =
      match substDen ck f tbl ts with
      | none => none
      | some r =>
        match t with
        | .Raw s => some (s ++ r)
        | .Key d =>
          match denoteFuel ck f tbl d with
          | none => none
          | some v => some (v ++ r) := rfl

/-- `denoteFuel` at an absent key. -/
lemma denoteFuel_succ_none {ck : CommonKeyable} {f : Nat} {tbl : KeyTable} {k : Str}
    (hl : tblLookup tbl k = none) : denoteFuel ck (f + 1) tbl k = none := by
  simp [denoteFuel, hl]

/-- `denoteFuel` at a resolved entry gives its stored value. -/
lemma denoteFuel_succ_res {ck : CommonKeyable} {f : Nat} {tbl : KeyTable} {k : Str}
    {e : AnyPreprocessable} {s : Str}
    (hl : tblLookup tbl k = some e) (hcv : cellVal e = some s) :
    denoteFuel ck (f + 1) tbl k = some s := by
  cases e with
  | name v => cases v with
    | NotPreprocessed n => simp [cellVal] at hcv
    | Preprocessed s2 =>
      injection hcv with hcv
      subst hcv
      simp [denoteFuel, hl]
  | string v => cases v with
    | NotPreprocessed src => simp [cellVal] at hcv
    | Preprocessed s2 =>
      injection hcv with hcv
      subst hcv
      simp [denoteFuel, hl]

/-- `denoteFuel` at an unresolved entry substitutes its tokens. -/
lemma denoteFuel_succ_unres {ck : CommonKeyable} {f : Nat} {tbl : KeyTable} {k : Str}
    {e : AnyPreprocessable} {ts : List PreprocessorToken}
    (hl : tblLookup tbl k = some e) (hu : isUnresolved e = true)
    (hts : entryTokens ck e = .ok ts) :
    denoteFuel ck (f + 1) tbl k = substDen ck f tbl ts := by
  cases e with
  | name v => cases v with
    | Preprocessed s => simp [isUnresolved] at hu
    | NotPreprocessed n =>
      simp only [denoteFuel, hl, hts]
      rfl
  | string v => cases v with
    | Preprocessed s => simp [isUnresolved] at hu
    | NotPreprocessed src =>
      simp only [denoteFuel, hl, hts]
      rfl

/-- `denoteFuel` at an unresolved entry whose tokenization fails. -/
lemma denoteFuel_succ_unres_err {ck : CommonKeyable} {f : Nat} {tbl : KeyTable} {k : Str}
    {e : AnyPreprocessable} {err : PErr}
    (hl : tblLookup tbl k = some e) (hu : isUnresolved e = true)
    (hts : entryTokens ck e = .error err) :
    denoteFuel ck (f + 1) tbl k = none := by
  cases e with
  | name v => cases v with
    | Preprocessed s => simp [isUnresolved] at hu
    | NotPreprocessed n => simp [denoteFuel, hl, hts]
  | string v => cases v with
    | Preprocessed s => simp [isUnresolved] at hu
    | NotPreprocessed src => simp [denoteFuel, hl, hts]

/-- Substitution depends only on the denotations of the referenced keys. -/
lemma substDen_congr {ck : CommonKeyable} {tbl : KeyTable} {f1 f2 : Nat} :
    ∀ ts : List PreprocessorToken,
      (∀ d ∈ tokenKeys ts, denoteFuel ck f1 tbl d = denoteFuel ck f2 tbl d) →
      substDen ck f1 tbl ts = substDen ck f2 tbl ts := by
  intro ts
  induction ts with
  | nil => intro _; rfl
  | cons t rest ih =>
    intro h
    cases t with
    | Raw s =>
      rw [substDen_cons, substDen_cons,
        ih (fun d hd => h d (by rwa [tokenKeys_cons_raw]))]
    | Key d =>
      have hd := h d (by rw [tokenKeys_cons_key]; exact List.mem_cons.mpr (Or.inl rfl))
      rw [substDen_cons, substDen_cons,
        ih (fun d2 hd2 => h d2 (by rw [tokenKeys_cons_key]; exact List.mem_cons.mpr (Or.inr hd2)))]
      cases substDen ck f2 tbl rest <;> simp [hd]

/-- Substitution succeeds when every referenced key denotes. -/
lemma substDen_total {ck : CommonKeyable} {tbl : KeyTable} {f : Nat} :
    ∀ ts : List PreprocessorToken,
      (∀ d ∈ tokenKeys ts, (denoteFuel ck f tbl d).isSome = true) →
      (substDen ck f tbl ts).isSome = true := by
  intro ts
  induction ts with
  | nil => intro _; rfl
  | cons t rest ih =>
    intro h
    cases t with
    | Raw s =>
      have hr := ih (fun d hd => h d (by rwa [tokenKeys_cons_raw]))
      rw [substDen_cons]
      cases hs : substDen ck f tbl rest with
      | none => rw [hs] at hr; exact Bool.noConfusion hr
      | some r => rfl
    | Key d =>
      have hdd := h d (by rw [tokenKeys_cons_key]; exact List.mem_cons.mpr (Or.inl rfl))
      have hr := ih (fun d2 hd2 => h d2 (by
        rw [tokenKeys_cons_key]; exact List.mem_cons.mpr (Or.inr hd2)))
      rw [substDen_cons]
      cases hs : substDen ck f tbl rest with
      | none => rw [hs] at hr; exact Bool.noConfusion hr
      | some r =>
        cases hdn : denoteFuel ck f tbl d with
        | none => rw [hdn] at hdd; exact Bool.noConfusion hdd
        | some v => simp [hs, hdn]

/-- Above the rank of a key, the denotation no longer depends on the fuel. -/
lemma denote_stable {ck : CommonKeyable} {tbl0 : KeyTable} {rank : Str → Nat}
    (hacyc : ∀ p ∈ tbl0, ∀ d ∈ entryDeps ck p.2, rank d < rank p.1) :
    ∀ n k f, rank k < n → rank k < f →
      denoteFuel ck f tbl0 k = denoteFuel ck (rank k + 1) tbl0 k := by
  intro n
  induction n with
  | zero => intro k f h _; omega
  | succ n ih =>
    intro k f hn hf
    obtain ⟨g, rfl⟩ : ∃ g, f = g + 1 := ⟨f - 1, by omega⟩
    cases hl : tblLookup tbl0 k with
    | none => rw [denoteFuel_succ_none hl, denoteFuel_succ_none hl]
    | some e =>
      by_cases hu : isUnresolved e = true
      · have hmem := tblLookup_mem hl
        cases hts : entryTokens ck e with
        | error err =>
          rw [denoteFuel_succ_unres_err hl hu hts, denoteFuel_succ_unres_err hl hu hts]
        | ok ts =>
          rw [denoteFuel_succ_unres hl hu hts, denoteFuel_succ_unres hl hu hts]
          refine substDen_congr ts ?_
          intro d hd
          have hdep : d ∈ entryDeps ck e := by
            rw [entryDeps_of_tokens hts]; exact hd
          have hrd : rank d < rank k := hacyc _ hmem d hdep
          have h1 : denoteFuel ck g tbl0 d = denoteFuel ck (rank d + 1) tbl0 d :=
            ih d g (by omega) (by omega)
          have h2 : denoteFuel ck (rank k) tbl0 d = denoteFuel ck (rank d + 1) tbl0 d :=
            ih d (rank k) (by omega) (by omega)
          rw [h1, h2]
      · obtain ⟨s, hcv⟩ := cellVal_of_resolved (by
          cases hb : isUnresolved e
          · rfl
          · exact absurd hb hu)
        rw [denoteFuel_succ_res hl hcv, denoteFuel_succ_res hl hcv]

/-- Under acyclicity, closedness and tokenizability, every key of the table
denotes at fuel `rank + 1`. -/
lemma denote_total {ck : CommonKeyable} {tbl0 : KeyTable} {rank : Str → Nat}
    (htok : ∀ p ∈ tbl0, ∃ ts, entryTokens ck p.2 = .ok ts)
    (hclosed : ∀ p ∈ tbl0, ∀ d ∈ entryDeps ck p.2, d ∈ tbl0.map Prod.fst)
    (hacyc : ∀ p ∈ tbl0, ∀ d ∈ entryDeps ck p.2, rank d < rank p.1) :
    ∀ n k, rank k < n → k ∈ tbl0.map Prod.fst →
      (denoteFuel ck (rank k + 1) tbl0 k).isSome = true := by
  intro n
  induction n with
  | zero => intro k h _; omega
  | succ n ih =>
    intro k hn hmemk
    have hsome : (tblLookup tbl0 k).isSome = true := lookup_isSome_iff.mpr hmemk
    cases hl : tblLookup tbl0 k with
    | none => rw [hl] at hsome; exact Bool.noConfusion hsome
    | some e =>
      by_cases hu : isUnresolved e = true
      · have hmem := tblLookup_mem hl
        obtain ⟨ts, hts⟩ := htok _ hmem
        rw [denoteFuel_succ_unres hl hu hts]
        refine substDen_total ts ?_
        intro d hd
        have hdep : d ∈ entryDeps ck e := by
          rw [entryDeps_of_tokens hts]; exact hd
        have hrd : rank d < rank k := hacyc _ hmem d hdep
        have hst : denoteFuel ck (rank k) tbl0 d = denoteFuel ck (rank d + 1) tbl0 d :=
          denote_stable hacyc n d (rank k) (by omega) (by omega)
        rw [hst]
        exact ih d (by omega) (hclosed _ hmem d hdep)
      · obtain ⟨s, hcv⟩ := cellVal_of_resolved (by
          cases hb : isUnresolved e
          · rfl
          · exact absurd hb hu)
        rw [denoteFuel_succ_res hl hcv]
        rfl

/-! ## Claim C4: generic list lemmas -/

/-- Every nonempty list has an element of minimal measure. -/
lemma list_exists_min {α : Type} (f : α → Nat) :
    ∀ l : List α, l ≠ [] → ∃ a ∈ l, ∀ b ∈ l, f a ≤ f b := by
  intro l
  induction l with
  | nil => intro h; exact absurd rfl h
  | cons x rest ih =>
    intro _
    by_cases hres : rest = []
    · subst hres
      refine ⟨x, List.mem_cons.mpr (Or.inl rfl), ?_⟩
      intro b hb
      rcases List.mem_cons.mp hb with rfl | hb'
      · exact le_refl _
      · exact absurd hb' (List.not_mem_nil _)
    · obtain ⟨a, ha, hmin⟩ := ih hres
      by_cases hle : f x ≤ f a
      · refine ⟨x, List.mem_cons.mpr (Or.inl rfl), ?_⟩
        intro b hb
        rcases List.mem_cons.mp hb with rfl | hb'
        · exact le_refl _
        · exact le_trans hle (hmin b hb')
      · refine ⟨a, List.mem_cons.mpr (Or.inr ha), ?_⟩
        intro b hb
        rcases List.mem_cons.mp hb with rfl | hb'
        · omega
        · exact hmin b hb'

/-- A filter by a pointwise-implied predicate is at most as long. -/
lemma filter_length_le {α : Type} (p q : α → Bool) :
    ∀ l : List α, (∀ a ∈ l, q a = true → p a = true) →
      (l.filter q).length ≤ (l.filter p).length := by
  intro l
  induction l with
  | nil => intro _; exact le_refl _
  | cons x rest ih =>
    intro himp
    have hr := ih (fun a ha => himp a (List.mem_cons.mpr (Or.inr ha)))
    cases hq : q x
    · cases hp : p x
      · simpa [List.filter_cons, hq, hp] using hr
      · simp [List.filter_cons, hq, hp]
        omega
    · have hp : p x = true := himp x (List.mem_cons.mpr (Or.inl rfl)) hq
      simp [List.filter_cons, hq, hp]
      omega

/-- A filter by a pointwise-implied predicate that loses a witness is
strictly shorter. -/
lemma filter_length_lt {α : Type} (p q : α → Bool) :
    ∀ l : List α, (∀ a ∈ l, q a = true → p a = true) →
      ∀ u ∈ l, p u = true → q u = false →
      (l.filter q).length < (l.filter p).length := by
  intro l
  induction l with
  | nil => intro _ u hu; exact absurd hu (List.not_mem_nil _)
  | cons x rest ih =>
    intro himp u hu hpu hqu
    have himpr : ∀ a ∈ rest, q a = true → p a = true :=
      fun a ha => himp a (List.mem_cons.mpr (Or.inr ha))
    rcases List.mem_cons.mp hu with rfl | hu'
    · have hle := filter_length_le p q rest himpr
      simp [List.filter_cons, hqu, hpu]
      omega
    · have hlt := ih himpr u hu' hpu hqu
      cases hq : q x
      · cases hp : p x
        · simpa [List.filter_cons, hq, hp] using hlt
        · simp [List.filter_cons, hq, hp]
          omega
      · have hp : p x = true := himp x (List.mem_cons.mpr (Or.inl rfl)) hq
        simp [List.filter_cons, hq, hp]
        omega

/-- In a table with distinct keys, membership determines lookup. -/
lemma lookup_eq_of_mem {tbl : KeyTable} (hnd : (tbl.map Prod.fst).Nodup)
    {k : Str} {e : AnyPreprocessable} (hmem : (k, e) ∈ tbl) :
    tblLookup tbl k = some e := by
  induction tbl with
  | nil => exact absurd hmem (List.not_mem_nil _)
  | cons p rest ih =>
    obtain ⟨k', e'⟩ := p
    simp only [List.map_cons, List.nodup_cons] at hnd
    obtain ⟨hnotin, hndr⟩ := hnd
    rcases List.mem_cons.mp hmem with heq | hmem'
    · injection heq with h1 h2
      subst h1
      subst h2
      simp [tblLookup]
    · have hk : ¬(k' = k) := by
        intro hc
        subst hc
        exact hnotin (List.mem_map.mpr ⟨(k', e), hmem', rfl⟩)
      simp [tblLookup, hk, ih hndr hmem']

/-- Permuting a table with distinct keys does not change lookups. -/
lemma lookup_perm {tbl tbl' : KeyTable} (hperm : tbl'.Perm tbl)
    (hnd : (tbl.map Prod.fst).Nodup) :
    ∀ k, tblLookup tbl' k = tblLookup tbl k := by
  have hnd' : (tbl'.map Prod.fst).Nodup := ((hperm.map Prod.fst).nodup_iff).mpr hnd
  intro k
  cases hl : tblLookup tbl k with
  | some e => exact lookup_eq_of_mem hnd' (hperm.mem_iff.mpr (tblLookup_mem hl))
  | none =>
    cases hl' : tblLookup tbl' k with
    | none => rfl
    | some e' =>
      have := lookup_eq_of_mem hnd (hperm.mem_iff.mp (tblLookup_mem hl'))
      rw [hl] at this
      exact Option.noConfusion this

/-- Substitution depends on the table only through the denotations of the
referenced keys. -/
lemma substDen_congr_table {ck : CommonKeyable} {a b : KeyTable} {f : Nat} :
    ∀ ts : List PreprocessorToken,
      (∀ d ∈ tokenKeys ts, denoteFuel ck f a d = denoteFuel ck f b d) →
      substDen ck f a ts = substDen ck f b ts := by
  intro ts
  induction ts with
  | nil => intro _; rfl
  | cons t rest ih =>
    intro h
    cases t with
    | Raw s =>
      rw [substDen_cons, substDen_cons,
        ih (fun d hd => h d (by rwa [tokenKeys_cons_raw]))]
    | Key d =>
      have hd := h d (by rw [tokenKeys_cons_key]; exact List.mem_cons.mpr (Or.inl rfl))
      rw [substDen_cons, substDen_cons,
        ih (fun d2 hd2 => h d2 (by
          rw [tokenKeys_cons_key]; exact List.mem_cons.mpr (Or.inr hd2)))]
      cases substDen ck f b rest <;> simp [hd]

/-- Two tables with identical lookups have identical denotations. -/
lemma denote_congr_table {ck : CommonKeyable} {a b : KeyTable}
    (h : ∀ k, tblLookup a k = tblLookup b k) :
    ∀ f k, denoteFuel ck f a k = denoteFuel ck f b k := by
  intro f
  induction f with
  | zero => intro k; rfl
  | succ f ih =>
    intro k
    cases hl : tblLookup b k with
    | none =>
      rw [denoteFuel_succ_none (by rw [h k, hl]), denoteFuel_succ_none hl]
    | some e =>
      have hla : tblLookup a k = some e := by rw [h k, hl]
      by_cases hu : isUnresolved e = true
      · cases hts : entryTokens ck e with
        | error err =>
          rw [denoteFuel_succ_unres_err hla hu hts,
            denoteFuel_succ_unres_err hl hu hts]
        | ok ts =>
          rw [denoteFuel_succ_unres hla hu hts, denoteFuel_succ_unres hl hu hts]
          exact substDen_congr_table ts (fun d _ => ih d)
      · obtain ⟨s, hcv⟩ := cellVal_of_resolved (by
          cases hb : isUnresolved e
          · rfl
          · exact absurd hb hu)
        rw [denoteFuel_succ_res hla hcv, denoteFuel_succ_res hl hcv]

/-- A stored value comes from a resolved cell. -/
lemma lookupVal_eq_some {cur : KeyTable} {d : Str} {v : Str}
    (h : lookupVal cur d = some v) :
    ∃ cell, tblLookup cur d = some cell ∧ cellVal cell = some v := by
  rw [lookupVal] at h
  cases hl : tblLookup cur d with
  | none => rw [hl] at h; exact Option.noConfusion h
  | some cell => rw [hl] at h; exact ⟨cell, rfl, h⟩

/-- Under the invariant, a resolved entry holds exactly the denotational
value of its key. -/
lemma c4Inv_vals {ck : CommonKeyable} {rank : Str → Nat} {tbl0 cur : KeyTable}
    (hinv : c4Inv ck rank tbl0 cur) :
    ∀ d e, tblLookup cur d = some e → isUnresolved e = false →
      ∃ v, cellVal e = some v ∧ denoteFuel ck (rank d + 1) tbl0 d = some v := by
  intro d e hl hres
  rcases hinv.2 d with horig | ⟨e0, v, h0, hden, hcur⟩
  · obtain ⟨s, hcv⟩ := cellVal_of_resolved hres
    refine ⟨s, hcv, ?_⟩
    rw [horig] at hl
    exact denoteFuel_succ_res hl hcv
  · rw [hcur] at hl
    injection hl with hl
    subst hl
    exact ⟨v, cellVal_resolveCell e0 v, hden⟩

/-- Under the invariant, unresolved entries are original. -/
lemma c4Inv_unres {ck : CommonKeyable} {rank : Str → Nat} {tbl0 cur : KeyTable}
    (hinv : c4Inv ck rank tbl0 cur) :
    ∀ k e, tblLookup cur k = some e → isUnresolved e = true →
      tblLookup tbl0 k = some e := by
  intro k e hl hu
  rcases hinv.2 k with horig | ⟨e0, v, h0, hden, hcur⟩
  · rw [← horig]; exact hl
  · rw [hcur] at hl
    injection hl with hl
    subst hl
    rw [isUnresolved_resolveCell] at hu
    exact Bool.noConfusion hu

/-- Assembly resolves to the substitution value when every referenced key
stores its denotational value. -/
lemma assemblyGo_resolves {ck : CommonKeyable} {tbl0 cur : KeyTable} {f : Nat} :
    ∀ (ts : List PreprocessorToken) (acc : Str),
      (∀ d ∈ tokenKeys ts, ∃ v, lookupVal cur d = some v ∧
        denoteFuel ck f tbl0 d = some v) →
      ∃ w, assemblyGo cur ts acc = .ok (some (acc ++ w)) ∧
        substDen ck f tbl0 ts = some w := by
  intro ts
  induction ts with
  | nil => intro acc _; exact ⟨[], by simp [assemblyGo], rfl⟩
  | cons t rest ih =>
    intro acc h
    cases t with
    | Raw s =>
      obtain ⟨w, hw, hsub⟩ := ih (acc ++ s)
        (fun d hd => h d (by rwa [tokenKeys_cons_raw]))
      refine ⟨s ++ w, ?_, ?_⟩
      · show assemblyGo cur rest (acc ++ s) = _
        rw [hw, List.append_assoc]
      · rw [substDen_cons, hsub]
    | Key d =>
      obtain ⟨v, hval, hden⟩ := h d (by
        rw [tokenKeys_cons_key]; exact List.mem_cons.mpr (Or.inl rfl))
      obtain ⟨cell, hlc, hcv⟩ := lookupVal_eq_some hval
      obtain ⟨w, hw, hsub⟩ := ih (acc ++ v)
        (fun d2 hd2 => h d2 (by
          rw [tokenKeys_cons_key]; exact List.mem_cons.mpr (Or.inr hd2)))
      refine ⟨v ++ w, ?_, ?_⟩
      · cases cell with
        | name vc =>
          cases vc with
          | NotPreprocessed n => simp [cellVal] at hcv
          | Preprocessed s2 =>
            injection hcv with hcv
            subst hcv
            simp only [assemblyGo, hlc]
            rw [hw, List.append_assoc]
        | string vc =>
          cases vc with
          | NotPreprocessed s2 => simp [cellVal] at hcv
          | Preprocessed s2 =>
            injection hcv with hcv
            subst hcv
            simp only [assemblyGo, hlc]
            rw [hw, List.append_assoc]
      · rw [substDen_cons, hsub]
        simp [hden]

/-- Unfolding of the sweep at an absent key. -/
lemma sweepGo_cons_none {ck : CommonKeyable} {cur : KeyTable} {key : Str}
    {rest : List Str} {d0 : Nat} (hl : tblLookup cur key = none) :
    sweepGo ck cur (key :: rest) d0 = sweepGo ck cur rest d0 := by
  simp [sweepGo, hl]

/-- Unfolding of the sweep at a resolved entry. -/
lemma sweepGo_cons_res {ck : CommonKeyable} {cur : KeyTable} {key : Str}
    {rest : List Str} {d0 : Nat} {e : AnyPreprocessable}
    (hl : tblLookup cur key = some e) (hres : isUnresolved e = false) :
    sweepGo ck cur (key :: rest) d0 = sweepGo ck cur rest d0 := by
  cases e with
  | name v =>
    cases v with
    | NotPreprocessed n => simp [isUnresolved] at hres
    | Preprocessed s => simp [sweepGo, hl]
  | string v =>
    cases v with
    | NotPreprocessed src => simp [isUnresolved] at hres
    | Preprocessed s => simp [sweepGo, hl]

/-- Unfolding of the sweep at an unresolved entry with accepted tokens. -/
lemma sweepGo_cons_unres {ck : CommonKeyable} {cur : KeyTable} {key : Str}
    {rest : List Str} {d0 : Nat} {e : AnyPreprocessable}
    {ts : List PreprocessorToken}
    (hl : tblLookup cur key = some e) (hu : isUnresolved e = true)
    (hts : entryTokens ck e = .ok ts) :
    sweepGo ck cur (key :: rest) d0 =
      match preprocessorTokenAssemblyAttempt ts cur with
      | .error err => (cur, .error err)
      | .ok none => sweepGo ck cur rest (d0 + 1)
      | .ok (some s) => sweepGo ck (tblUpdate cur key (resolveCell e s)) rest d0 := by
  cases e with
  | name v =>
    cases v with
    | Preprocessed s => simp [isUnresolved] at hu
    | NotPreprocessed n =>
      have hts' : nameIntoPreprocessorTokens n ck = .ok ts := hts
      simp only [sweepGo, hl, hts']
      rfl
  | string v =>
    cases v with
    | Preprocessed s => simp [isUnresolved] at hu
    | NotPreprocessed src =>
      have hts' : strIntoPreprocessorTokens src ck = .ok ts := hts
      simp only [sweepGo, hl, hts']
      rfl

/-- One sweep under the invariant: it returns `ok`, preserves the invariant,
never unresolves an entry, leaves unvisited keys untouched, reports exactly
the entries left unresolved, and resolves every visited unresolved entry
whose dependencies were already resolved on entry. -/
lemma c4_sweep (ck : CommonKeyable) (tbl0 : KeyTable) (rank : Str → Nat)
    (htok : ∀ p ∈ tbl0, ∃ ts, entryTokens ck p.2 = .ok ts)
    (hclosed : ∀ p ∈ tbl0, ∀ d ∈ entryDeps ck p.2, d ∈ tbl0.map Prod.fst)
    (hacyc : ∀ p ∈ tbl0, ∀ d ∈ entryDeps ck p.2, rank d < rank p.1) :
    ∀ (order : List Str) (cur : KeyTable) (d0 : Nat), order.Nodup →
      c4Inv ck rank tbl0 cur →
      ∃ cur' dc, sweepGo ck cur order d0 = (cur', .ok dc) ∧
        c4Inv ck rank tbl0 cur' ∧
        (∀ j, unresAt cur j = false → unresAt cur' j = false) ∧
        (∀ j, j ∉ order → tblLookup cur' j = tblLookup cur j) ∧
        dc = d0 + (order.filter (fun k => unresAt cur' k)).length ∧
        (∀ u ∈ order,
          (∃ e, tblLookup cur u = some e ∧ isUnresolved e = true ∧
            ∀ d ∈ entryDeps ck e, unresAt cur d = false) →
          unresAt cur' u = false) := by
  intro order
  induction order with
  | nil =>
    intro cur d0 _ hinv
    exact ⟨cur, d0, rfl, hinv, fun j h => h, fun j _ => rfl, by simp,
      fun u hu => absurd hu (List.not_mem_nil _)⟩
  | cons key rest ih =>
    intro cur d0 hnd hinv
    have hndr : rest.Nodup := (List.nodup_cons.mp hnd).2
    have hkey_notin : key ∉ rest := (List.nodup_cons.mp hnd).1
    cases hl : tblLookup cur key with
    | none =>
      obtain ⟨cur', dc, hrun, hinv', hmono, hframe, hcount, hprog⟩ :=
        ih cur d0 hndr hinv
      refine ⟨cur', dc, ?_, hinv', hmono, ?_, ?_, ?_⟩
      · rw [sweepGo_cons_none hl]; exact hrun
      · intro j hj
        exact hframe j (fun hm => hj (List.mem_cons.mpr (Or.inr hm)))
      · have hkey' : unresAt cur' key = false := by
          rw [unresAt, hframe key hkey_notin, hl]
        rw [hcount]
        simp [List.filter_cons, hkey']
      · intro u hu hyp
        rcases List.mem_cons.mp hu with rfl | hu'
        · obtain ⟨e, hle, _, _⟩ := hyp
          rw [hl] at hle
          exact Option.noConfusion hle
        · exact hprog u hu' hyp
    | some e =>
      by_cases hu : isUnresolved e = true
      · have horig : tblLookup tbl0 key = some e := c4Inv_unres hinv key e hl hu
        have hmem0 : (key, e) ∈ tbl0 := tblLookup_mem horig
        obtain ⟨ts, hts⟩ := htok _ hmem0
        have hdeps_eq : entryDeps ck e = tokenKeys ts := entryDeps_of_tokens hts
        have hpresent : ∀ d ∈ tokenKeys ts, (tblLookup cur d).isSome = true := by
          intro d hd
          apply lookup_isSome_iff.mpr
          rw [hinv.1]
          exact hclosed _ hmem0 d (by rw [hdeps_eq]; exact hd)
        by_cases hex : ∃ d ∈ tokenKeys ts, unresAt cur d = true
        · have ha : preprocessorTokenAssemblyAttempt ts cur = .ok none :=
            assemblyGo_defers ts [] hpresent hex
          obtain ⟨cur', dc, hrun, hinv', hmono, hframe, hcount, hprog⟩ :=
            ih cur (d0 + 1) hndr hinv
          refine ⟨cur', dc, ?_, hinv', hmono, ?_, ?_, ?_⟩
          · rw [sweepGo_cons_unres hl hu hts]
            simp only [ha]
            exact hrun
          · intro j hj
            exact hframe j (fun hm => hj (List.mem_cons.mpr (Or.inr hm)))
          · have hkey' : unresAt cur' key = true := by
              rw [unresAt, hframe key hkey_notin, hl]
              exact hu
            rw [hcount]
            simp [List.filter_cons, hkey']
            omega
          · intro u hu2 hyp
            rcases List.mem_cons.mp hu2 with rfl | hu'
            · exfalso
              obtain ⟨e2, hle2, _, hdr⟩ := hyp
              rw [hl] at hle2
              injection hle2 with hle2
              subst hle2
              obtain ⟨d, hd, hud⟩ := hex
              have hres := hdr d (by rw [hdeps_eq]; exact hd)
              rw [hres] at hud
              exact Bool.noConfusion hud
            · exact hprog u hu' hyp
        · push_neg at hex
          have hex' : ∀ d ∈ tokenKeys ts, unresAt cur d = false := by
            intro d hd
            cases hb : unresAt cur d
            · rfl
            · exact absurd hb (hex d hd)
          have hvals : ∀ d ∈ tokenKeys ts, ∃ v, lookupVal cur d = some v ∧
              denoteFuel ck (rank key) tbl0 d = some v := by
            intro d hd
            have hds := hpresent d hd
            cases hld : tblLookup cur d with
            | none => rw [hld] at hds; exact Bool.noConfusion hds
            | some ed =>
              have hres : isUnresolved ed = false := by
                have := hex' d hd
                rwa [unresAt, hld] at this
              obtain ⟨v, hcv, hden⟩ := c4Inv_vals hinv d ed hld hres
              refine ⟨v, by rw [lookupVal, hld]; exact hcv, ?_⟩
              have hrd : rank d < rank key :=
                hacyc _ hmem0 d (by rw [hdeps_eq]; exact hd)
              rw [denote_stable hacyc (rank key) d (rank key) hrd hrd]
              exact hden
          obtain ⟨w, hw, hsub⟩ := assemblyGo_resolves ts [] hvals
          have ha : preprocessorTokenAssemblyAttempt ts cur = .ok (some w) := hw
          have hFkey : denoteFuel ck (rank key + 1) tbl0 key = some w := by
            rw [denoteFuel_succ_unres horig hu hts]
            exact hsub
          have hlup : tblLookup (tblUpdate cur key (resolveCell e w)) key =
              some (resolveCell e w) := tblLookup_update_self _ hl
          have hinv2 : c4Inv ck rank tbl0 (tblUpdate cur key (resolveCell e w)) := by
            constructor
            · rw [tblUpdate_map_fst]
              exact hinv.1
            · intro k
              by_cases hk : k = key
              · subst hk
                exact Or.inr ⟨e, w, horig, hFkey, hlup⟩
              · rcases hinv.2 k with horig2 | ⟨e0, v, h0, hden, hcur⟩
                · exact Or.inl (by rw [tblLookup_update_ne _ hk]; exact horig2)
                · exact Or.inr ⟨e0, v, h0, hden,
                    by rw [tblLookup_update_ne _ hk]; exact hcur⟩
          have hstep : ∀ j, unresAt cur j = false →
              unresAt (tblUpdate cur key (resolveCell e w)) j = false := by
            intro j hj
            by_cases hk : j = key
            · subst hk
              rw [unresAt, hlup]
              exact isUnresolved_resolveCell e w
            · rw [unresAt, tblLookup_update_ne _ hk]
              rw [unresAt] at hj
              exact hj
          obtain ⟨cur', dc, hrun, hinv', hmono, hframe, hcount, hprog⟩ :=
            ih (tblUpdate cur key (resolveCell e w)) d0 hndr hinv2
          have hkey' : unresAt cur' key = false := by
            rw [unresAt, hframe key hkey_notin, hlup]
            exact isUnresolved_resolveCell e w
          refine ⟨cur', dc, ?_, hinv', ?_, ?_, ?_, ?_⟩
          · rw [sweepGo_cons_unres hl hu hts]
            simp only [ha]
            exact hrun
          · intro j hj
            exact hmono j (hstep j hj)
          · intro j hj
            have hjne : ¬(j = key) := fun hc => hj (hc ▸ List.mem_cons.mpr (Or.inl rfl))
            rw [hframe j (fun hm => hj (List.mem_cons.mpr (Or.inr hm))),
              tblLookup_update_ne _ hjne]
          · rw [hcount]
            simp [List.filter_cons, hkey']
          · intro u hu2 hyp
            rcases List.mem_cons.mp hu2 with rfl | hu'
            · exact hkey'
            · obtain ⟨e2, hle2, hue2, hdr⟩ := hyp
              have hune : ¬(u = key) := fun hc => hkey_notin (hc ▸ hu')
              refine hprog u hu' ⟨e2, ?_, hue2, ?_⟩
              · rw [tblLookup_update_ne _ hune]
                exact hle2
              · intro d hd
                exact hstep d (hdr d hd)
      · have hures : isUnresolved e = false := by
          cases hb : isUnresolved e
          · rfl
          · exact absurd hb hu
        obtain ⟨cur', dc, hrun, hinv', hmono, hframe, hcount, hprog⟩ :=
          ih cur d0 hndr hinv
        refine ⟨cur', dc, ?_, hinv', hmono, ?_, ?_, ?_⟩
        · rw [sweepGo_cons_res hl hures]
          exact hrun
        · intro j hj
          exact hframe j (fun hm => hj (List.mem_cons.mpr (Or.inr hm)))
        · have hkey' : unresAt cur' key = false := by
            rw [unresAt, hframe key hkey_notin, hl]
            exact hures
          rw [hcount]
          simp [List.filter_cons, hkey']
        · intro u hu2 hyp
          rcases List.mem_cons.mp hu2 with rfl | hu'
          · obtain ⟨e2, hle2, hue2, _⟩ := hyp
            rw [hl] at hle2
            injection hle2 with hle2
            subst hle2
            exact absurd hue2 hu
          · exact hprog u hu' hyp

/-- A cell storing a value is a fixed point of resolving to that value. -/
lemma resolveCell_of_cellVal {e : AnyPreprocessable} {v : Str}
    (h : cellVal e = some v) : resolveCell e v = e := by
  cases e with
  | name p =>
    cases p with
    | NotPreprocessed n => simp [cellVal] at h
    | Preprocessed s =>
      simp [cellVal] at h
      subst h
      rfl
  | string p =>
    cases p with
    | NotPreprocessed s => simp [cellVal] at h
    | Preprocessed s =>
      simp [cellVal] at h
      subst h
      rfl

/-- The sweep loop on an acyclic table: it returns `ok` and resolves every
entry to the denotational value of its key. -/
lemma c4_loop (ck : CommonKeyable) (tbl0 : KeyTable) (rank : Str → Nat)
    (hnd0 : (tbl0.map Prod.fst).Nodup)
    (htok : ∀ p ∈ tbl0, ∃ ts, entryTokens ck p.2 = .ok ts)
    (hclosed : ∀ p ∈ tbl0, ∀ d ∈ entryDeps ck p.2, d ∈ tbl0.map Prod.fst)
    (hacyc : ∀ p ∈ tbl0, ∀ d ∈ entryDeps ck p.2, rank d < rank p.1) :
    ∀ left cur, c4Inv ck rank tbl0 cur →
      ((tbl0.map Prod.fst).filter (fun k => unresAt cur k)).length ≤ left →
      ∃ fin, preprocessLoop ck cur left = (fin, .ok ()) ∧
        c4Inv ck rank tbl0 fin ∧
        ∀ k ∈ tbl0.map Prod.fst, ∃ e0 v,
          tblLookup tbl0 k = some e0 ∧
          denoteFuel ck (rank k + 1) tbl0 k = some v ∧
          tblLookup fin k = some (resolveCell e0 v) := by
  intro left
  induction left using Nat.strong_induction_on with
  | _ left ih =>
    intro cur hinv hcnt
    rw [preprocessLoop_step]
    by_cases h0 : left = 0
    · rw [if_pos h0]
      rw [h0] at hcnt
      have hall : ∀ k ∈ tbl0.map Prod.fst, unresAt cur k = false := by
        intro k hk
        cases hb : unresAt cur k
        · rfl
        · exfalso
          have hmemf : k ∈ (tbl0.map Prod.fst).filter (fun k => unresAt cur k) :=
            List.mem_filter.mpr ⟨hk, by simpa using hb⟩
          have := List.length_pos.mpr (List.ne_nil_of_mem hmemf)
          omega
      refine ⟨cur, rfl, hinv, ?_⟩
      intro k hk
      have hsome : (tblLookup cur k).isSome = true :=
        lookup_isSome_iff.mpr (by rw [hinv.1]; exact hk)
      cases hl : tblLookup cur k with
      | none => rw [hl] at hsome; exact Bool.noConfusion hsome
      | some e =>
        have hres : isUnresolved e = false := by
          have := hall k hk
          rwa [unresAt, hl] at this
        rcases hinv.2 k with horig | ⟨e0, v, h0l, hden, hcur⟩
        · have hl0 : tblLookup tbl0 k = some e := by rw [← horig]; exact hl
          obtain ⟨s, hcv⟩ := cellVal_of_resolved hres
          exact ⟨e, s, hl0, denoteFuel_succ_res hl0 hcv,
            by rw [resolveCell_of_cellVal hcv]⟩
        · exact ⟨e0, v, h0l, hden, by rw [← hl]; exact hcur⟩
    · rw [if_neg h0]
      have hnd_order : (cur.map Prod.fst).Nodup := by
        rw [hinv.1]; exact hnd0
      obtain ⟨cur', dc, hrun, hinv', hmono, hframe, hcount, hprog⟩ :=
        c4_sweep ck tbl0 rank htok hclosed hacyc (cur.map Prod.fst) cur 0
          hnd_order hinv
      rw [hinv.1] at hcount
      rw [Nat.zero_add] at hcount
      have himp : ∀ a ∈ tbl0.map Prod.fst,
          unresAt cur' a = true → unresAt cur a = true := by
        intro a _ h'
        cases hb : unresAt cur a
        · rw [hmono a hb] at h'
          exact Bool.noConfusion h'
        · rfl
      have hdc_lt : dc < left := by
        by_cases hz : ((tbl0.map Prod.fst).filter (fun k => unresAt cur k)).length = 0
        · have hle := filter_length_le (fun k => unresAt cur k)
            (fun k => unresAt cur' k) (tbl0.map Prod.fst) himp
          omega
        · have hne : (tbl0.map Prod.fst).filter (fun k => unresAt cur k) ≠ [] := by
            intro hc
            rw [hc] at hz
            exact hz rfl
          obtain ⟨u, hu_mem, humin⟩ := list_exists_min rank _ hne
          have hu_keys : u ∈ tbl0.map Prod.fst := (List.mem_filter.mp hu_mem).1
          have hu_unres : unresAt cur u = true := by
            simpa using (List.mem_filter.mp hu_mem).2
          obtain ⟨e, hle⟩ : ∃ e, tblLookup cur u = some e := by
            have hs := isSome_of_unresAt hu_unres
            cases h : tblLookup cur u with
            | none => rw [h] at hs; exact Bool.noConfusion hs
            | some e => exact ⟨e, rfl⟩
          have hue : isUnresolved e = true := by
            have := hu_unres
            rwa [unresAt, hle] at this
          have horig : tblLookup tbl0 u = some e := c4Inv_unres hinv u e hle hue
          have hmem0 : (u, e) ∈ tbl0 := tblLookup_mem horig
          have hdr : ∀ d ∈ entryDeps ck e, unresAt cur d = false := by
            intro d hd
            cases hb : unresAt cur d
            · rfl
            · exfalso
              have hdk : d ∈ tbl0.map Prod.fst := hclosed _ hmem0 d hd
              have hdf : d ∈ (tbl0.map Prod.fst).filter (fun k => unresAt cur k) :=
                List.mem_filter.mpr ⟨hdk, by simpa using hb⟩
              have hmin := humin d hdf
              have hrd : rank d < rank u := hacyc _ hmem0 d hd
              omega
          have hu_res' : unresAt cur' u = false := by
            apply hprog u (by rw [hinv.1]; exact hu_keys)
            exact ⟨e, hle, hue, hdr⟩
          have hlt := filter_length_lt (fun k => unresAt cur k)
            (fun k => unresAt cur' k) (tbl0.map Prod.fst) himp u hu_keys
            hu_unres hu_res'
          omega
      obtain ⟨fin, hloop, hinvf, hresf⟩ := ih dc hdc_lt cur' hinv' (by omega)
      refine ⟨fin, ?_, hinvf, hresf⟩
      simp only [hrun]
      rw [if_neg (by omega : ¬ left ≤ dc)]
      exact hloop

/-- C4: over a key table whose key-reference graph is acyclic (witnessed by a
rank function strictly decreasing along references), with every referenced key
present and every entry tokenizable, `preprocess_key_name_pairs` returns `Ok`
on every iteration order of the table (modelled as a permutation of the
association list), every entry ends in the resolved (`Preprocessed`) state,
and the final string of each entry is the denotational value of its key —
computed from the original table alone, hence independent of the iteration
order. -/
theorem c4_acyclic_resolution
    (ck : CommonKeyable) (tbl0 : KeyTable) (rank : Str → Nat)
    (hnd0 : (tbl0.map Prod.fst).Nodup)
    (htok : ∀ p ∈ tbl0, ∃ ts, entryTokens ck p.2 = .ok ts)
    (hclosed : ∀ p ∈ tbl0, ∀ d ∈ entryDeps ck p.2, d ∈ tbl0.map Prod.fst)
    (hacyc : ∀ p ∈ tbl0, ∀ d ∈ entryDeps ck p.2, rank d < rank p.1) :
    ∀ tbl' : KeyTable, tbl'.Perm tbl0 →
      ∃ fin, preprocessKeyNamePairs ck tbl' = (fin, .ok ()) ∧
        ∀ k ∈ tbl0.map Prod.fst, ∃ v,
          denoteFuel ck (rank k + 1) tbl0 k = some v ∧
          lookupVal fin k = some v := by
  intro tbl' hperm
  have hmap : ∀ k, tblLookup tbl' k = tblLookup tbl0 k := lookup_perm hperm hnd0
  have hnd' : (tbl'.map Prod.fst).Nodup := ((hperm.map Prod.fst).nodup_iff).mpr hnd0
  have htok' : ∀ p ∈ tbl', ∃ ts, entryTokens ck p.2 = .ok ts :=
    fun p hp => htok p (hperm.mem_iff.mp hp)
  have hclosed' : ∀ p ∈ tbl', ∀ d ∈ entryDeps ck p.2, d ∈ tbl'.map Prod.fst :=
    fun p hp d hd =>
      ((hperm.map Prod.fst).mem_iff).mpr (hclosed p (hperm.mem_iff.mp hp) d hd)
  have hacyc' : ∀ p ∈ tbl', ∀ d ∈ entryDeps ck p.2, rank d < rank p.1 :=
    fun p hp d hd => hacyc p (hperm.mem_iff.mp hp) d hd
  have hinv0 : c4Inv ck rank tbl' tbl' := ⟨rfl, fun _ => Or.inl rfl⟩
  have hcnt0 : ((tbl'.map Prod.fst).filter (fun k => unresAt tbl' k)).length ≤
      tbl'.length := by
    calc ((tbl'.map Prod.fst).filter (fun k => unresAt tbl' k)).length
        ≤ (tbl'.map Prod.fst).length := List.length_filter_le _ _
      _ = tbl'.length := List.length_map _ _
  obtain ⟨fin, hloop, _, hres⟩ :=
    c4_loop ck tbl' rank hnd' htok' hclosed' hacyc' tbl'.length tbl' hinv0 hcnt0
  refine ⟨fin, hloop, ?_⟩
  intro k hk
  obtain ⟨e0, v, h0, hden, hfin⟩ :=
    hres k (((hperm.map Prod.fst).mem_iff).mpr hk)
  refine ⟨v, ?_, ?_⟩
  · rw [← denote_congr_table hmap (rank k + 1) k]
    exact hden
  · rw [lookupVal, hfin]
    exact cellVal_resolveCell e0 v

/-- C4 witness: on the two-entry acyclic table `c4tbl` run in reversed
iteration order, the resolver succeeds and every entry holds its
denotational value. -/
theorem c4_acyclic_resolution_witness :
    ∃ fin, preprocessKeyNamePairs c4ck c4tbl.reverse = (fin, .ok ()) ∧
      ∀ k ∈ c4tbl.map Prod.fst, ∃ v,
        denoteFuel c4ck (c4rank k + 1) c4tbl k = some v ∧
        lookupVal fin k = some v :=
  c4_acyclic_resolution c4ck c4tbl c4rank (by decide)
    (by
      intro p hp
      have hp' : p = (['A'], .string (.NotPreprocessed ['x'])) ∨
          p = (['B'], .string (.NotPreprocessed ['@', '{', 'A', '}', 'y'])) := by
        simpa [c4tbl] using hp
      rcases hp' with rfl | rfl
      · exact ⟨_, rfl⟩
      · exact ⟨_, rfl⟩)
    (by decide) (by decide) c4tbl.reverse (List.reverse_perm c4tbl)

/-! ## The compile stage: joins and repeat expansion -/

/-- Unfolding of the join at a cons with a nonempty tail. -/
lemma joinArgs_cons (x : Str) (l : List Str) (h : l ≠ []) :
    joinArgs (x :: l) = x ++ ", ".data ++ joinArgs l := by
  cases l with
  | nil => exact absurd rfl h
  | cons y rest => rfl

/-- Join of a nonempty list extended by two entries. -/
lemma joinArgs_append_two (A : List Str) (x y : Str) (hA : A ≠ []) :
    joinArgs (A ++ [x, y]) =
      joinArgs A ++ ", ".data ++ x ++ ", ".data ++ y := by
  induction A with
  | nil => exact absurd rfl hA
  | cons a rest ih =>
    by_cases hr : rest = []
    · subst hr
      simp [joinArgs, List.append_assoc]
    · have hne : rest ++ [x, y] ≠ [] := by simp
      rw [List.cons_append, joinArgs_cons _ _ hne, ih hr, joinArgs_cons a rest hr]
      simp [List.append_assoc]

/-- The inner token loop appends exactly the claim-side expansions. -/
lemma appendTokens_eq {V j i : Nat} :
    ∀ (tokens : List CompilerToken), (∀ t ∈ tokens, isNamedRef t = false) →
      ∀ acc, appendTokens V j i tokens acc =
        .ok (acc ++ (tokens.map (claimIterToken V j i)).flatten) := by
  intro tokens
  induction tokens with
  | nil => intro _ acc; simp [appendTokens]
  | cons t ts ih =>
    intro hn acc
    have hts : ∀ t2 ∈ ts, isNamedRef t2 = false :=
      fun t2 ht => hn t2 (List.mem_cons.mpr (Or.inr ht))
    cases t with
    | NamedArgumentRef s =>
      have := hn _ (List.mem_cons.mpr (Or.inl rfl))
      simp [isNamedRef] at this
    | Raw s =>
      simp [appendTokens, repeatBodyToken, ih hts, claimIterToken, List.append_assoc]
    | Position =>
      simp [appendTokens, repeatBodyToken, ih hts, claimIterToken, List.append_assoc]
    | UnamedArgumentRef n =>
      simp [appendTokens, repeatBodyToken, ih hts, claimIterToken, List.append_assoc]
    | SkipLast s =>
      by_cases h : i = j - 1
      · subst h
        simp [appendTokens, repeatBodyToken, ih hts, claimIterToken]
      · have h2 : j - 1 ≠ i := fun hc => h hc.symm
        simp [appendTokens, repeatBodyToken, ih hts, claimIterToken, h, h2,
          List.append_assoc]

/-- The iteration loop appends the claim-side expansion of every
iteration. -/
lemma repeatItersGo_eq {V j : Nat} {tokens : List CompilerToken}
    (hn : ∀ t ∈ tokens, isNamedRef t = false) :
    ∀ (l : List Nat) (acc : Str), repeatItersGo tokens V j l acc =
      .ok (acc ++ (l.map
        (fun i => (tokens.map (claimIterToken V j i)).flatten)).flatten) := by
  intro l
  induction l with
  | nil => intro acc; simp [repeatItersGo]
  | cons i rest ih =>
    intro acc
    simp [repeatItersGo, appendTokens_eq tokens hn, ih, List.append_assoc]

/-- The emitted body for count `c` is the claim-side body. -/
lemma repeatBody_eq {pre post unpar : Str} {tokens : List CompilerToken}
    {V c : Nat} (hV : V ≠ 0) (hn : ∀ t ∈ tokens, isNamedRef t = false) :
    repeatBody pre post unpar tokens V c =
      .ok (claimBody pre post unpar tokens V c) := by
  rw [repeatBody, claimBody, if_neg hV]
  by_cases h : c % V = 0
  · rw [if_pos h, if_pos h]
    simp [repeatItersGo_eq hn, List.append_assoc]
  · rw [if_neg h, if_neg h]

/-- The count loop emits one macro line per count, with the claim-side
body. -/
lemma repeatLinesGo_eq {common : Common} {suffix : Nat} {namedArgs : List Str}
    {pre post unpar : Str} {tokens : List CompilerToken} {V : Nat}
    (hV : V ≠ 0) (hn : ∀ t ∈ tokens, isNamedRef t = false) :
    ∀ (cs : List Nat) (acc : Str),
      repeatLinesGo common suffix namedArgs pre post unpar tokens V cs acc =
        .ok (acc ++ (cs.map (fun c =>
          repeatMacroHeader common suffix namedArgs c
            ++ claimBody pre post unpar tokens V c ++ ['\n'])).flatten) := by
  intro cs
  induction cs with
  | nil => intro acc; simp [repeatLinesGo]
  | cons c rest ih =>
    intro acc
    simp [repeatLinesGo, repeatMacroLine, repeatBody_eq hV hn, ih,
      List.append_assoc]

/-- Characterization of a successful `compile_and_assemble_repeat_string`
run: the count-0 line, one line per count `1..repeats` with the claim-side
body, and the picker line. -/
lemma compileRepeatString_eq {g : Generator} {common : Common} {core : Core}
    {suffix : Nat} {fe fu pre post rep : Str} {namedArgs : List Str} {V : Nat}
    {tokens : List CompilerToken}
    (hfe : g.fallbacks.empty = .Preprocessed fe)
    (hfu : g.fallbacks.unparity = .Preprocessed fu)
    (hpre : g.preamble = .Preprocessed pre)
    (hpost : g.postamble = .Preprocessed post)
    (hrep : g.repeatS = .Preprocessed rep)
    (hargs : argsLoop core.args [] none = .ok (namedArgs, some V))
    (hV : V ≠ 0)
    (htok : tokenize rep = .ok tokens)
    (hn : ∀ t ∈ tokens, isNamedRef t = false) :
    compileAndAssembleRepeatString g common core suffix =
      .ok (repeatZeroLine common suffix namedArgs fe
        ++ ((List.range' 1 (common.repeats - 1)).map (fun c =>
            repeatMacroHeader common suffix namedArgs c
              ++ claimBody pre post fu tokens V c ++ ['\n'])).flatten
        ++ pickerLine common suffix) := by
  simp only [compileAndAssembleRepeatString, hfe, hfu, hpre, hpost, hrep,
    readPreprocessed, hargs, htok, repeatLinesGo_eq hV hn]

/-! ## Claim C2 -/

/-- C2: for a generator with group size `V ≥ 1` whose strings are all
preprocessed and whose repeat token stream holds no named reference, the
emitted macro text consists of the count-0 macro whose body is the
fallback-empty string, one macro per count `c` in `1..repeats` whose body is
the fallback-unparity string when `c % V ≠ 0` and otherwise the preamble,
`j = c / V` expansions of the repeat body (Raw copied, Position as the
decimal of `i+1`, an indexed reference `n` as the placeholder of slot
`n + i·V`, SkipLast suppressed exactly in the last iteration) and the
postamble, followed by the picker. -/
theorem c2_repeat_expansion {g : Generator} {common : Common} {core : Core}
    {suffix : Nat} {fe fu pre post rep : Str} {namedArgs : List Str} {V : Nat}
    {tokens : List CompilerToken}
    (hfe : g.fallbacks.empty = .Preprocessed fe)
    (hfu : g.fallbacks.unparity = .Preprocessed fu)
    (hpre : g.preamble = .Preprocessed pre)
    (hpost : g.postamble = .Preprocessed post)
    (hrep : g.repeatS = .Preprocessed rep)
    (hargs : argsLoop core.args [] none = .ok (namedArgs, some V))
    (hV : 1 ≤ V)
    (htok : tokenize rep = .ok tokens)
    (hn : ∀ t ∈ tokens, isNamedRef t = false) :
    compileAndAssembleRepeatString g common core suffix =
      .ok (repeatZeroLine common suffix namedArgs fe
        ++ ((List.range' 1 (common.repeats - 1)).map (fun c =>
            repeatMacroHeader common suffix namedArgs c
              ++ claimBody pre post fu tokens V c ++ ['\n'])).flatten
        ++ pickerLine common suffix) :=
  compileRepeatString_eq hfe hfu hpre hpost hrep hargs (by omega) htok hn

/-- C2 witness: a concrete generator with repeat `"$(0)$[,]"`, one named
argument, group size 1 and three repeats. -/
theorem c2_repeat_expansion_witness :
    compileAndAssembleRepeatString gW commonW coreW 0 =
      .ok (repeatZeroLine commonW 0 [['n']] ['e']
        ++ ((List.range' 1 (commonW.repeats - 1)).map (fun c =>
            repeatMacroHeader commonW 0 [['n']] c
              ++ claimBody ['p'] ['q'] ['u']
                  [.UnamedArgumentRef 0, .SkipLast [',']] 1 c ++ ['\n'])).flatten
        ++ pickerLine commonW 0) :=
  c2_repeat_expansion (by decide) (by decide) (by decide) (by decide)
    (show gW.repeatS = .Preprocessed ['$', '(', '0', ')', '$', '[', ',', ']'] by decide)
    (by decide) (by decide) (by decide) (by decide)

/-! ## Claim C5 -/

/-- C5 counterexample: `load_surface_compilable_strings` pushes the repeat
string too, so `compile_surface_strings` rewrites it: the legal but
non-canonical repeat `"$(00)"` of `c5gen` comes back as `"$(0)"`. -/
theorem c5_surface_counterexample :
    ∃ g2, compileSurfaceGenerators [] [c5gen] = .ok [g2] ∧
      g2.repeatS ≠ c5gen.repeatS := by
  refine ⟨⟨⟨.Preprocessed [], .Preprocessed []⟩, .Preprocessed [],
    .Preprocessed ['$', '(', '0', ')'], .Preprocessed []⟩, ?_, ?_⟩
  · decide
  · decide

/-- C5 amended: the surface-compilation stage rewrites all five generator
strings — fallback-empty, fallback-unparity, postamble, preamble, and also
the repeat string. -/
theorem c5_all_five_surface_compiled (g g' : Generator) (named : NamedTable)
    (h : compileSurfaceGenerator g named = .ok g') :
    compileSurfaceString g.fallbacks.empty named = .ok g'.fallbacks.empty ∧
    compileSurfaceString g.fallbacks.unparity named = .ok g'.fallbacks.unparity ∧
    compileSurfaceString g.postamble named = .ok g'.postamble ∧
    compileSurfaceString g.preamble named = .ok g'.preamble ∧
    compileSurfaceString g.repeatS named = .ok g'.repeatS := by
  cases h1 : compileSurfaceString g.fallbacks.empty named with
  | error e =>
    simp only [compileSurfaceGenerator, h1] at h
    exact Except.noConfusion h
  | ok emp =>
    cases h2 : compileSurfaceString g.fallbacks.unparity named with
    | error e =>
      simp only [compileSurfaceGenerator, h1, h2] at h
      exact Except.noConfusion h
    | ok unp =>
      cases h3 : compileSurfaceString g.postamble named with
      | error e =>
        simp only [compileSurfaceGenerator, h1, h2, h3] at h
        exact Except.noConfusion h
      | ok post =>
        cases h4 : compileSurfaceString g.preamble named with
        | error e =>
          simp only [compileSurfaceGenerator, h1, h2, h3, h4] at h
          exact Except.noConfusion h
        | ok pre =>
          cases h5 : compileSurfaceString g.repeatS named with
          | error e =>
            simp only [compileSurfaceGenerator, h1, h2, h3, h4, h5] at h
            exact Except.noConfusion h
          | ok rep =>
            simp only [compileSurfaceGenerator, h1, h2, h3, h4, h5] at h
            injection h with h
            subst h
            exact ⟨rfl, rfl, rfl, rfl, rfl⟩

/-- C5 witness: the amended theorem at `c5gen`, whose repeat string is
visibly rewritten. -/
theorem c5_all_five_surface_compiled_witness :
    compileSurfaceString c5gen.fallbacks.empty [] = .ok (.Preprocessed []) ∧
    compileSurfaceString c5gen.fallbacks.unparity [] = .ok (.Preprocessed []) ∧
    compileSurfaceString c5gen.postamble [] = .ok (.Preprocessed []) ∧
    compileSurfaceString c5gen.preamble [] = .ok (.Preprocessed []) ∧
    compileSurfaceString c5gen.repeatS [] =
      .ok (.Preprocessed ['$', '(', '0', ')']) :=
  c5_all_five_surface_compiled c5gen
    ⟨⟨.Preprocessed [], .Preprocessed []⟩, .Preprocessed [],
      .Preprocessed ['$', '(', '0', ')'], .Preprocessed []⟩ [] (by decide)

/-! ## Claim C9 -/

/-- For a positive repeat count, the emitted picker line is the claim-side
picker: parameter list of `R` slots, the sentinel and the capture, body the
sentinel. -/
lemma pickerLine_eq_spec {common : Common} {suffix : Nat}
    (hR : 1 ≤ common.repeats) :
    pickerLine common suffix = c9PickerSpec common suffix common.repeats := by
  have hne : (List.range common.repeats).map argPlaceholder ≠ [] := by
    simp [List.range_eq_nil]
    omega
  rw [pickerLine, c9PickerSpec, joinArgs_append_two _ _ _ hne]
  simp [List.append_assoc]

/-- For a positive repeat count and at least one named argument, each
generator call in the main macro body is the claim-side call. -/
lemma mainMacroCall_eq_spec {common : Common} {namedArgs : List Str} {i : Nat}
    (hR : 1 ≤ common.repeats) (hna : namedArgs ≠ []) :
    mainMacroCall common namedArgs i = c9MainCallSpec common namedArgs i := by
  have hrev : ((List.range common.repeats).map
      (fun j => generateRepeatName common j i)).reverse ≠ [] := by
    simp [List.range_eq_nil]
    omega
  have hcons2 : ("##__VA_ARGS__".data : Str) ::
      ((List.range common.repeats).map
        (fun j => generateRepeatName common j i)).reverse ≠ [] := by
    simp
  rw [mainMacroCall, c9MainCallSpec, joinArgs_append_two _ _ _ hna,
    joinArgs_cons _ _ hcons2, joinArgs_cons _ _ hrev]
  simp [List.append_assoc]

/-- C9 counterexample: the claimed macro shapes fail on legal degenerate
configurations. With a repeat count of zero the emitted picker line is
`#define X__ARGS__0(, __NAME__, ...) __NAME__` — the unconditional
`", __NAME__, ..."` after an empty slot join leaves a stray empty leading
slot, not a parameter list of exactly `R` slots, the sentinel and the
capture; and with zero named arguments each generator call in the outer
macro body carries a stray leading comma before the picker argument. -/
theorem c9_shape_counterexample :
    pickerLine ⟨⟨['X']⟩, 0⟩ 0 ≠ c9PickerSpec ⟨⟨['X']⟩, 0⟩ 0 0 ∧
    mainMacroCall ⟨⟨['X']⟩, 1⟩ [] 0 ≠ c9MainCallSpec ⟨⟨['X']⟩, 1⟩ [] 0 := by
  decide

/-- C9 amended: for a positive repeat count `R` and at least one named
argument, the picker macro emitted for generator `i` is parameterized by
exactly `R` placeholder slots, the `__NAME__` sentinel slot and a trailing
variadic capture, with the sentinel as its whole body; and the outer macro's
body calls, for each generator in declared order, that generator's entry
macro on the named arguments, its picker applied to (the `"empty"` literal,
the caller's trailing arguments, the reversed list of its `R` count-specific
macro names), and the trailing arguments. At `R = 0`, and likewise with no
named arguments, the emitted text instead carries a stray empty leading
parameter slot. -/
theorem c9_picker_and_outer_macro {g : Generator} {common : Common}
    {core : Core} {suffix gcount : Nat} {fe fu pre post rep x : Str}
    {namedArgs : List Str} {V : Nat} {tokens : List CompilerToken}
    (hfe : g.fallbacks.empty = .Preprocessed fe)
    (hfu : g.fallbacks.unparity = .Preprocessed fu)
    (hpre : g.preamble = .Preprocessed pre)
    (hpost : g.postamble = .Preprocessed post)
    (hrep : g.repeatS = .Preprocessed rep)
    (hargs : argsLoop core.args [] none = .ok (namedArgs, some V))
    (hV : 1 ≤ V)
    (htok : tokenize rep = .ok tokens)
    (hn : ∀ t ∈ tokens, isNamedRef t = false)
    (hx : core.xmva = .Preprocessed x)
    (hR : 1 ≤ common.repeats)
    (hna : namedArgs ≠ []) :
    (∃ p, compileAndAssembleRepeatString g common core suffix =
      .ok (p ++ c9PickerSpec common suffix common.repeats)) ∧
    assembleMainMacroString core common gcount =
      .ok ("#define ".data ++ x ++ ['('] ++ joinArgs namedArgs
        ++ ", ...) ".data
        ++ ((List.range gcount).map (c9MainCallSpec common namedArgs)).flatten) := by
  constructor
  · refine ⟨repeatZeroLine common suffix namedArgs fe
      ++ ((List.range' 1 (common.repeats - 1)).map (fun c =>
          repeatMacroHeader common suffix namedArgs c
            ++ claimBody pre post fu tokens V c ++ ['\n'])).flatten, ?_⟩
    rw [compileRepeatString_eq hfe hfu hpre hpost hrep hargs (by omega) htok hn,
      pickerLine_eq_spec hR]
  · have heq : mainMacroCall common namedArgs = c9MainCallSpec common namedArgs :=
      funext (fun i => mainMacroCall_eq_spec hR hna)
    simp only [assembleMainMacroString, hx, readPreprocessed, hargs, heq]

/-- C9 witness: one generator, prefix `X`, three repeats, one named
argument. -/
theorem c9_picker_and_outer_macro_witness :
    (∃ p, compileAndAssembleRepeatString gW commonW coreW 0 =
      .ok (p ++ c9PickerSpec commonW 0 commonW.repeats)) ∧
    assembleMainMacroString coreW commonW 1 =
      .ok ("#define ".data ++ ['m'] ++ ['('] ++ joinArgs [['n']]
        ++ ", ...) ".data
        ++ ((List.range 1).map (c9MainCallSpec commonW [['n']])).flatten) :=
  c9_picker_and_outer_macro
    (show gW.fallbacks.empty = .Preprocessed ['e'] by decide)
    (show gW.fallbacks.unparity = .Preprocessed ['u'] by decide)
    (show gW.preamble = .Preprocessed ['p'] by decide)
    (show gW.postamble = .Preprocessed ['q'] by decide)
    (show gW.repeatS = .Preprocessed ['$', '(', '0', ')', '$', '[', ',', ']'] by decide)
    (show argsLoop coreW.args [] none = .ok ([['n']], some 1) by decide)
    (show 1 ≤ 1 by decide)
    (show tokenize ['$', '(', '0', ')', '$', '[', ',', ']'] =
      .ok [.UnamedArgumentRef 0, .SkipLast [',']] by decide)
    (by decide) (by decide) (by decide) (by decide)

/-! ## Claim C10 -/

/-- With no varadict declaration, the args loop succeeds and keeps the
accumulator's varadict state. -/
lemma argsLoop_no_varadict :
    ∀ (args : List Argument) (acc : List Str) (va : Option Nat),
      vaCount args = 0 →
      (∀ nd, Argument.Named nd ∈ args → ∃ s, nd.name = .Preprocessed s) →
      ∃ named, argsLoop args acc va = .ok (named, va) := by
  intro args
  induction args with
  | nil => intro acc va _ _; exact ⟨acc, rfl⟩
  | cons a rest ih =>
    intro acc va hz hpre
    cases a with
    | Named nd =>
      obtain ⟨s, hs⟩ := hpre nd (List.mem_cons.mpr (Or.inl rfl))
      have hz2 : vaCount rest = 0 := by
        simpa [vaCount, List.filter_cons, isVaradict] using hz
      obtain ⟨named, hrun⟩ := ih (acc ++ [s]) va hz2
        (fun nd2 h2 => hpre nd2 (List.mem_cons.mpr (Or.inr h2)))
      exact ⟨named, by simp [argsLoop, hs, hrun]⟩
    | Varadict v =>
      exfalso
      simp [vaCount, List.filter_cons, isVaradict] at hz
/-- With two or more varadict declarations (counting one already seen), the
args loop fails with `DuplicateArgument`. -/
lemma argsLoop_dup :
    ∀ (args : List Argument) (acc : List Str) (va : Option Nat),
      2 ≤ vaCount args + (if va.isSome then 1 else 0) →
      (∀ nd, Argument.Named nd ∈ args → ∃ s, nd.name = .Preprocessed s) →
      argsLoop args acc va = .error .DuplicateArgument := by
  intro args
  induction args with
  | nil =>
    intro acc va h _
    cases va with
    | none => simp [vaCount] at h
    | some v => simp [vaCount] at h
  | cons a rest ih =>
    intro acc va h hpre
    cases a with
    | Named nd =>
      obtain ⟨s, hs⟩ := hpre nd (List.mem_cons.mpr (Or.inl rfl))
      have h2 : 2 ≤ vaCount rest + (if va.isSome then 1 else 0) := by
        have hc : vaCount (Argument.Named nd :: rest) = vaCount rest := by
          simp [vaCount, List.filter_cons, isVaradict]
        rw [hc] at h
        exact h
      simp [argsLoop, hs,
        ih (acc ++ [s]) va h2
          (fun nd2 hm => hpre nd2 (List.mem_cons.mpr (Or.inr hm)))]
    | Varadict v =>
      cases va with
      | some w => simp [argsLoop]
      | none =>
        have hcnt : vaCount (Argument.Varadict v :: rest) = vaCount rest + 1 := by
          simp [vaCount, List.filter_cons, isVaradict]
        have h2 : 2 ≤ vaCount rest + (if (some v).isSome then 1 else 0) := by
          rw [hcnt] at h
          simp at h ⊢
          omega
        simp [argsLoop,
          ih acc (some v) h2
            (fun nd2 hm => hpre nd2 (List.mem_cons.mpr (Or.inr hm)))]

/-- C10 counterexample: with an empty generator list, a config with zero
varadict declarations compiles successfully and produces macro text — the
missing-varadict check lives inside the per-generator repeat compiler and
never runs. -/
theorem c10_zero_varadict_counterexample :
    vaCount c10cfg.core.args = 0 ∧ c10cfg.generator = [] ∧
      (Config.compileAndAssemble c10cfg).isOk = true := by
  decide

/-- C10 amended: per generator, the repeat compiler enforces exactly one
varadict declaration — zero yields `NonExistantArgument`, two or more yield
`DuplicateArgument` — but a config with no generators never runs this check
and can compile with zero varadicts. -/
theorem c10_varadict_count {g : Generator} {common : Common} {core : Core}
    {suffix : Nat} {fe fu pre post : Str}
    (hfe : g.fallbacks.empty = .Preprocessed fe)
    (hfu : g.fallbacks.unparity = .Preprocessed fu)
    (hpre : g.preamble = .Preprocessed pre)
    (hpost : g.postamble = .Preprocessed post)
    (hnamed : ∀ nd, Argument.Named nd ∈ core.args → ∃ s, nd.name = .Preprocessed s) :
    (vaCount core.args = 0 →
      compileAndAssembleRepeatString g common core suffix =
        .error .NonExistantArgument) ∧
    (2 ≤ vaCount core.args →
      compileAndAssembleRepeatString g common core suffix =
        .error .DuplicateArgument) := by
  constructor
  · intro h0
    obtain ⟨named, hrun⟩ := argsLoop_no_varadict core.args [] none h0 hnamed
    simp only [compileAndAssembleRepeatString, hfe, hfu, hpre, hpost,
      readPreprocessed, hrun]
  · intro h2
    have hrun := argsLoop_dup core.args [] none (by simpa using h2) hnamed
    simp only [compileAndAssembleRepeatString, hfe, hfu, hpre, hpost,
      readPreprocessed, hrun]

/-- C10 witness: the amended theorem at a varadict-free core and at a core
with two varadicts. -/
theorem c10_varadict_count_witness :
    compileAndAssembleRepeatString gW commonW coreZeroW 0 =
      .error .NonExistantArgument ∧
    compileAndAssembleRepeatString gW commonW coreTwoW 0 =
      .error .DuplicateArgument := by
  constructor
  · exact (c10_varadict_count
      (show gW.fallbacks.empty = .Preprocessed ['e'] by decide)
      (show gW.fallbacks.unparity = .Preprocessed ['u'] by decide)
      (show gW.preamble = .Preprocessed ['p'] by decide)
      (show gW.postamble = .Preprocessed ['q'] by decide)
      (by intro nd h; simp [coreZeroW] at h; exact ⟨['n'], by rw [h]⟩)).1
      (by decide)
  · exact (c10_varadict_count
      (show gW.fallbacks.empty = .Preprocessed ['e'] by decide)
      (show gW.fallbacks.unparity = .Preprocessed ['u'] by decide)
      (show gW.preamble = .Preprocessed ['p'] by decide)
      (show gW.postamble = .Preprocessed ['q'] by decide)
      (by intro nd h; simp [coreTwoW] at h)).2
      (by decide)

end Xmva

